import Mathlib

/-!
Shallow embedding of the game engine of `wine.py` (Winesweeper).

Modelling conventions:
* Python `int` board values become `Int`; coordinates are `Nat` (they are
  produced by `range`/`randint` and stay non-negative in the source).
* Fallible indexing (`winefield[y][x]`, `buttons[y][x]`, `list.remove`)
  becomes `Option`: `none` models the Python exception propagating out of
  the operation before any further mutation.
* The face button text set by `set_state` is the only record of the game
  phase in the source; it is modelled by the `phase` field.
* `self.revealed` is re-initialised by `generate_game` as a list of
  boolean rows, but every later use treats it as a list of `(x, y)`
  tuples (membership tests and appends); a boolean row never equals a
  coordinate tuple in Python, so membership-wise the initial value is the
  empty list of pairs, which is how it is modelled here.
* The random source of `randint(0, cols - 1)` / `randint(0, rows - 1)` is
  modelled by a list of proposed `(rx, ry)` pairs reduced modulo the
  bounds; the `while filled < wines` loop consumes one proposal per
  iteration and fails with `none` when the list of proposals is
  exhausted before `wines` mines are placed (a finite prefix of a random
  stream that never fills the board).
* The recursive `__crawl_blank_field` performs its sequential recursive
  calls in depth-first order; `crawlWork` is the same computation with
  the call stack made explicit as a work list: a recursive call on the
  neighbor list followed by the remaining calls is the work list with
  the neighbors prepended.
-/

namespace Winesweeper

abbrev Pos := Nat × Nat

abbrev Winefield := List (List Int)

/-- The three `STATE_*` integer constants of `GameController`. -/
inductive Phase where
  | playing : Phase
  | won : Phase
  | lost : Phase
deriving DecidableEq, Repr

/-- The engine-relevant mutable fields of `GameController`. -/
structure GameState where
  rows : Nat
  cols : Nat
  wines : Nat
  winefield : Winefield
  revealed : List Pos
  flagged : List Pos
  phase : Phase
deriving DecidableEq, Repr

/-- `self.winefield[y][x]`: `none` models the `IndexError` on out-of-bounds access. -/
def valueAt (w : Winefield) (x y : Nat) : Option Int :=
  (w[y]?).bind (fun row => row[x]?)

/-- `self.winefield[y][x] = v` (no-op out of bounds; call sites guard with `valueAt`). -/
def setCell (w : Winefield) (x y : Nat) (v : Int) : Winefield :=
  w.set y ((w.getD y []).set x v)

/-- `GameController._get_neighbors`: the nested `range` loops over the clamped
box around `(x, y)`, followed by `neighbors.remove((x, y))`; `none` models the
`ValueError` that `remove` raises when `(x, y)` is not in the list. -/
def getNeighbors (cols rows x y : Nat) : Option (List Pos) :=
  let xa := x - 1
  let ya := y - 1
  let xlen := min (x + 2) cols - xa
  let ylen := min (y + 2) rows - ya
  let l := (List.range' ya ylen).flatMap (fun yr => (List.range' xa xlen).map (fun xr => (xr, yr)))
  if (x, y) ∈ l then some (l.erase (x, y)) else none

/-- The `(x, y)` pairs visited by `for y in range(rows): for x in range(cols)`. -/
def cellList (rows cols : Nat) : List Pos :=
  (List.range rows).flatMap (fun y => (List.range cols).map (fun x => (x, y)))

/-- `GameController._reveal`: appends `(x, y)` to `revealed` unless already
present; the `buttons[y][x]` access gives `none` out of bounds. -/
def revealCell (s : GameState) (x y : Nat) : Option GameState :=
  if (x, y) ∈ s.revealed then some s
  else if y < s.rows ∧ x < s.cols then
    some { s with revealed := s.revealed ++ [(x, y)] }
  else none

/-- `GameController._reveal_all_cells`: `_reveal` on every cell in row-major order. -/
def revealAllCells (s : GameState) : Option GameState :=
  (cellList s.rows s.cols).foldlM (fun t p => revealCell t p.1 p.2) s

/-- `GameController.set_state`: records the face-button phase; on win or loss
it also reveals the whole board. -/
def setState (s : GameState) (st : Phase) : Option GameState :=
  match st with
  | .playing => some { s with phase := .playing }
  | .won => revealAllCells { s with phase := .won }
  | .lost => revealAllCells { s with phase := .lost }

/-- The summation loop of `GameController.check_win`:
`total = total + self.winefield[y][x]` over the flagged list. -/
def flagTotal (w : Winefield) (flagged : List Pos) : Option Int :=
  flagged.foldlM (fun t p => (valueAt w p.1 p.2).map (fun v => t + v)) 0

/-- `GameController.check_win`: win exactly when the flagged values sum to `-1 * wines`. -/
def checkWin (s : GameState) : Option GameState :=
  match flagTotal s.winefield s.flagged with
  | none => none
  | some total => if total = -1 * (s.wines : Int) then setState s .won else some s

/-- In-bounds cells of a (possibly ragged) winefield, used as the termination
measure universe for the crawl. -/
def gridCells (w : Winefield) : List Pos :=
  (List.range w.length).flatMap (fun y => (List.range (w.getD y []).length).map (fun x => (x, y)))

/-- Number of in-bounds cells not yet recorded in `info`. -/
def unvisited (w : Winefield) (info : List Pos) : Nat :=
  (gridCells w).countP (fun p => decide (p ∉ info))

theorem countP_lt_countP_of_imp {l : List Pos} {P Q : Pos → Bool}
    (himp : ∀ a, Q a = true → P a = true) {q : Pos}
    (hq : q ∈ l) (hP : P q = true) (hQ : Q q = false) :
    l.countP Q < l.countP P := by
  induction l with
  | nil => cases hq
  | cons a t ih =>
    have hmono : t.countP Q ≤ t.countP P := List.countP_mono_left (fun a ha => himp a)
    rcases List.mem_cons.mp hq with h | h
    · subst h
      rw [List.countP_cons, List.countP_cons, hP, hQ]
      simp only [Bool.false_eq_true, if_true, if_false]
      omega
    · rw [List.countP_cons, List.countP_cons]
      have := ih h
      by_cases hQa : Q a = true
      · rw [hQa, himp a hQa]; omega
      · rw [Bool.not_eq_true] at hQa
        rw [hQa]
        simp only [Bool.false_eq_true, if_false]
        by_cases hPa : P a = true
        · rw [hPa]; simp only [if_true]; omega
        · rw [Bool.not_eq_true] at hPa
          rw [hPa]
          simp only [Bool.false_eq_true, if_false]
          omega

theorem mem_gridCells_of_valueAt {w : Winefield} {x y : Nat} {v : Int}
    (h : valueAt w x y = some v) : (x, y) ∈ gridCells w := by
  unfold valueAt at h
  rcases hy : w[y]? with _ | row
  · rw [hy] at h; cases h
  · rw [hy] at h
    simp only [Option.some_bind] at h
    have hylt : y < w.length := by
      by_contra hc
      rw [List.getElem?_eq_none (by omega)] at hy
      cases hy
    have hrow : w.getD y [] = row := by
      rw [List.getD_eq_getElem?_getD, hy]; rfl
    have hxlt : x < row.length := by
      by_contra hc
      rw [List.getElem?_eq_none (by omega)] at h
      cases h
    unfold gridCells
    rw [List.mem_flatMap]
    refine ⟨y, List.mem_range.mpr hylt, ?_⟩
    rw [List.mem_map]
    exact ⟨x, List.mem_range.mpr (hrow ▸ hxlt), rfl⟩

theorem unvisited_append_lt {w : Winefield} {info : List Pos} {x y : Nat} {v : Int}
    (hv : valueAt w x y = some v) (hmem : (x, y) ∉ info) :
    unvisited w (info ++ [(x, y)]) < unvisited w info := by
  unfold unvisited
  refine countP_lt_countP_of_imp ?_ (mem_gridCells_of_valueAt hv) ?_ ?_
  · intro a ha
    simp only [decide_eq_true_eq, List.mem_append, List.mem_singleton] at ha ⊢
    intro hc
    exact ha (Or.inl hc)
  · simp only [decide_eq_true_eq]
    exact hmem
  · simp

/-- `GameController.__crawl_blank_field`, with the sequential recursive calls
made explicit as a LIFO work list (see the module comment): pop `(x, y)`, read
`self.winefield[y][x]` (may raise), return if visited, record as empty, return
if the value is nonzero, else push all neighbors. `info` is the `_empties`
list of `CrawlInfo` (its `is_visited` tests membership in `_empties`). -/
def crawlWork (w : Winefield) (cols rows : Nat) : List Pos → List Pos → Option (List Pos)
  | [], info => some info
  | (x, y) :: ps, info =>
    match hv : valueAt w x y with
    | none => none
    | some v =>
      if hmem : (x, y) ∈ info then crawlWork w cols rows ps info
      else if v ≠ 0 then crawlWork w cols rows ps (info ++ [(x, y)])
      else
        match getNeighbors cols rows x y with
        | none => none
        | some nbrs => crawlWork w cols rows (nbrs ++ ps) (info ++ [(x, y)])
termination_by ps info => (unvisited w info, ps.length)
decreasing_by
  · apply Prod.Lex.right
    simp
  · apply Prod.Lex.left
    exact unvisited_append_lt hv hmem
  · apply Prod.Lex.left
    exact unvisited_append_lt hv hmem

/-- Fuel-bounded copy of `crawlWork` used to evaluate concrete crawls by
kernel reduction (`crawlWork` itself is defined by well-founded recursion and
does not reduce definitionally); `crawlFuel_sound` transfers its results. -/
def crawlFuel (w : Winefield) (cols rows : Nat) : Nat → List Pos → List Pos → Option (List Pos)
  | 0, _, _ => none
  | _ + 1, [], info => some info
  | fuel + 1, (x, y) :: ps, info =>
    match valueAt w x y with
    | none => none
    | some v =>
      if (x, y) ∈ info then crawlFuel w cols rows fuel ps info
      else if v ≠ 0 then crawlFuel w cols rows fuel ps (info ++ [(x, y)])
      else
        match getNeighbors cols rows x y with
        | none => none
        | some nbrs => crawlFuel w cols rows fuel (nbrs ++ ps) (info ++ [(x, y)])

/-- Entry point matching `_reveal_empty_field`'s crawl: fresh `CrawlInfo`,
start at `(x, y)`. -/
def crawlBlankField (w : Winefield) (cols rows x y : Nat) : Option (List Pos) :=
  crawlWork w cols rows [(x, y)] []

/-- `GameController._reveal_empty_field`: crawl, then `_reveal` each recorded cell. -/
def revealEmptyField (s : GameState) (x y : Nat) : Option GameState :=
  match crawlBlankField s.winefield s.cols s.rows x y with
  | none => none
  | some empties => empties.foldlM (fun t p => revealCell t p.1 p.2) s

/-- `GameController.do_left_click`. -/
def doLeftClick (s : GameState) (x y : Nat) : Option GameState :=
  match valueAt s.winefield x y with
  | none => none
  | some boardscore =>
    if boardscore = -1 then setState s .lost
    else if boardscore > 0 then revealCell s x y
    else revealEmptyField s x y

/-- `GameController.do_right_click`: no-op on revealed cells, else the
`buttons[y][x]` access (bounds), then unflag without a win check, or flag
followed by `check_win`. -/
def doRightClick (s : GameState) (x y : Nat) : Option GameState :=
  if (x, y) ∈ s.revealed then some s
  else if y < s.rows ∧ x < s.cols then
    if (x, y) ∈ s.flagged then some { s with flagged := s.flagged.erase (x, y) }
    else checkWin { s with flagged := s.flagged ++ [(x, y)] }
  else none

/-- The inner neighbor loop of `generate_game`: bump each non-mine neighbor's weight. -/
def bumpNeighbors (w : Winefield) : List Pos → Option Winefield
  | [] => some w
  | (xr, yr) :: rest =>
    match valueAt w xr yr with
    | none => none
    | some val =>
      if val ≠ -1 then bumpNeighbors (setCell w xr yr (val + 1)) rest
      else bumpNeighbors w rest

/-- The `while filled < self.wines` mine-placement loop of `generate_game`,
consuming one random proposal per iteration. -/
def fillWines (rows cols wines : Nat) : Nat → Winefield → List Pos → Option Winefield
  | filled, w, props =>
    if wines ≤ filled then some w
    else
      match props with
      | [] => none
      | (rx, ry) :: rest =>
        let x := rx % cols
        let y := ry % rows
        match valueAt w x y with
        | none => none
        | some v =>
          if v ≠ -1 then
            match getNeighbors cols rows x y with
            | none => none
            | some nbrs =>
              match bumpNeighbors (setCell w x y (-1)) nbrs with
              | none => none
              | some w2 => fillWines rows cols wines (filled + 1) w2 rest
          else fillWines rows cols wines filled w rest

/-- The zero board built by the first nested loop of `generate_game`. -/
def zeroBoard (rows cols : Nat) : Winefield :=
  List.replicate rows (List.replicate cols 0)

/-- `GameController.generate_game`: reset phase to playing, clear the board
and the revealed/flagged lists, then place the mines. -/
def generateGame (rows cols wines : Nat) (props : List Pos) : Option GameState :=
  (fillWines rows cols wines 0 (zeroBoard rows cols) props).map (fun w =>
    { rows := rows, cols := cols, wines := wines, winefield := w,
      revealed := [], flagged := [], phase := .playing })

/-- The first `n` draws of a random outcome, as a proposal list. -/
def streamTake (f : Nat → Pos) (n : Nat) : List Pos :=
  (List.range n).map f

/-- The modelled `generate_game` loop runs forever on this random outcome:
no finite prefix of the stream lets it finish. -/
def GenDiverges (rows cols wines : Nat) (f : Nat → Pos) : Prop :=
  ∀ n, generateGame rows cols wines (streamTake f n) = none

/-- A properly rectangular `rows × cols` winefield. -/
def WellFormed (w : Winefield) (rows cols : Nat) : Prop :=
  w.length = rows ∧ ∀ row ∈ w, row.length = cols

instance (w : Winefield) (rows cols : Nat) : Decidable (WellFormed w rows cols) := by
  unfold WellFormed; infer_instance

/-- The in-bounds cells whose stored value is `-1`, in row-major order. -/
def mineCells (w : Winefield) (rows cols : Nat) : List Pos :=
  (cellList rows cols).filter (fun p => decide (valueAt w p.1 p.2 = some (-1)))

/-- The clue value the spec derives: the number of neighbors holding a wine. -/
def mineNeighborCount (w : Winefield) (cols rows x y : Nat) : Nat :=
  match getNeighbors cols rows x y with
  | some l => l.countP (fun p => decide (valueAt w p.1 p.2 = some (-1)))
  | none => 0

/-- Every in-bounds non-wine cell stores exactly its wine-neighbor count. -/
def ClueInvariant (w : Winefield) (rows cols : Nat) : Prop :=
  ∀ x y, x < cols → y < rows → ∀ v, valueAt w x y = some v → v ≠ -1 →
    v = (mineNeighborCount w cols rows x y : Int)

/-- The neighbor relation as the spec words it: in bounds, Chebyshev distance
one, not the cell itself. -/
def ChebNeighbor (cols rows x y a b : Nat) : Prop :=
  a < cols ∧ b < rows ∧ (a, b) ≠ (x, y) ∧ a ≤ x + 1 ∧ x ≤ a + 1 ∧ b ≤ y + 1 ∧ y ≤ b + 1

instance (cols rows x y a b : Nat) : Decidable (ChebNeighbor cols rows x y a b) := by
  unfold ChebNeighbor; infer_instance

/-- One flood-fill expansion step: from a blank (value 0) cell to any of its
neighbors. -/
def ZeroStep (w : Winefield) (cols rows : Nat) (p q : Pos) : Prop :=
  valueAt w p.1 p.2 = some 0 ∧ ∃ l, getNeighbors cols rows p.1 p.2 = some l ∧ q ∈ l

/-- Connectivity through blank cells: the contiguous blank region of the start
together with its numeric border. -/
def ZeroPath (w : Winefield) (cols rows : Nat) (p q : Pos) : Prop :=
  Relation.ReflTransGen (ZeroStep w cols rows) p q

theorem crawlWork_nil (w : Winefield) (cols rows : Nat) (info : List Pos) :
    crawlWork w cols rows [] info = some info :=
  crawlWork.eq_1 w cols rows info

theorem crawlWork_cons_none {w : Winefield} {cols rows x y : Nat} {ps info : List Pos}
    (h : valueAt w x y = none) :
    crawlWork w cols rows ((x, y) :: ps) info = none := by
  rw [crawlWork.eq_2]
  split
  · rfl
  · rename_i v hv
    rw [h] at hv; cases hv

theorem crawlWork_cons_mem {w : Winefield} {cols rows x y : Nat} {ps info : List Pos} {v : Int}
    (h : valueAt w x y = some v) (hm : (x, y) ∈ info) :
    crawlWork w cols rows ((x, y) :: ps) info = crawlWork w cols rows ps info := by
  rw [crawlWork.eq_2]
  split
  · rename_i hv; rw [h] at hv; cases hv
  · rw [dif_pos hm]

theorem crawlWork_cons_nonzero {w : Winefield} {cols rows x y : Nat} {ps info : List Pos} {v : Int}
    (h : valueAt w x y = some v) (hv0 : v ≠ 0) (hm : (x, y) ∉ info) :
    crawlWork w cols rows ((x, y) :: ps) info =
      crawlWork w cols rows ps (info ++ [(x, y)]) := by
  rw [crawlWork.eq_2]
  split
  · rename_i hv; rw [h] at hv; cases hv
  · rename_i v' hv
    rw [h] at hv
    injection hv with hv
    subst hv
    rw [dif_neg hm, if_pos hv0]

theorem crawlWork_cons_zero {w : Winefield} {cols rows x y : Nat} {ps info : List Pos}
    (h : valueAt w x y = some 0) (hm : (x, y) ∉ info) :
    crawlWork w cols rows ((x, y) :: ps) info =
      match getNeighbors cols rows x y with
      | none => none
      | some nbrs => crawlWork w cols rows (nbrs ++ ps) (info ++ [(x, y)]) := by
  rw [crawlWork.eq_2]
  split
  · rename_i hv; rw [h] at hv; cases hv
  · rename_i v' hv
    rw [h] at hv
    injection hv with hv
    subst hv
    rw [dif_neg hm, if_neg (by simp)]

theorem crawlFuel_sound {w : Winefield} {cols rows : Nat} :
    ∀ (fuel : Nat) {stack info r : List Pos},
      crawlFuel w cols rows fuel stack info = some r →
      crawlWork w cols rows stack info = some r := by
  intro fuel
  induction fuel with
  | zero => intro stack info r h; cases h
  | succ n ih =>
    intro stack info r h
    match stack with
    | [] =>
      rw [crawlWork_nil]
      exact h
    | (x, y) :: ps =>
      rw [crawlFuel] at h
      split at h
      · cases h
      · rename_i v hv
        by_cases hm : (x, y) ∈ info
        · rw [if_pos hm] at h
          rw [crawlWork_cons_mem hv hm]
          exact ih h
        · rw [if_neg hm] at h
          by_cases hv0 : v = 0
          · subst hv0
            rw [if_neg (by simp)] at h
            rw [crawlWork_cons_zero hv hm]
            rcases hn : getNeighbors cols rows x y with _ | nbrs
            · rw [hn] at h; cases h
            · rw [hn] at h
              exact ih h
          · rw [if_pos hv0] at h
            rw [crawlWork_cons_nonzero hv hv0 hm]
            exact ih h

/-- Unfolds `revealEmptyField` once the crawl result is known. -/
theorem revealEmptyField_eq {s : GameState} {x y : Nat} {empties : List Pos}
    (h : crawlBlankField s.winefield s.cols s.rows x y = some empties) :
    revealEmptyField s x y = empties.foldlM (fun t p => revealCell t p.1 p.2) s := by
  unfold revealEmptyField
  rw [h]

/-- A 3 by 3 game with one wine, generated with the random source proposing
`(0, 0)`: the board is `[[-1, 1, 0], [1, 1, 0], [0, 0, 0]]`. -/
def demo33 : Option GameState := generateGame 3 3 1 [(0, 0)]

/-- Right-click the blank non-wine corner `(2, 2)`, then right-click the wine
`(0, 0)`. -/
def c1Chain : Option GameState :=
  (demo33.bind (fun t => doRightClick t 2 2)).bind (fun t => doRightClick t 0 0)

/-- C1 counterexample: on the generated 3 by 3 one-wine board, flagging the
value-0 cell `(2, 2)` and then the wine `(0, 0)` makes the flagged values sum
to `-1 * mine_count` even though the flagged set is not the mine set, and
`check_win` transitions the phase to `Won` with a flag sitting on a non-mine
cell; the claimed equivalence and the "only when every flag sits on a mine"
consequence are both false at this input. -/
theorem c1_counterexample :
    c1Chain.map GameState.phase = some Phase.won
  ∧ c1Chain.map GameState.flagged = some [(2, 2), (0, 0)]
  ∧ c1Chain.map (fun s => flagTotal s.winefield s.flagged)
      = some (some (-1 * (1 : Int)))
  ∧ c1Chain.map (fun s => valueAt s.winefield 2 2) = some (some 0)
  ∧ c1Chain.map (fun s => mineCells s.winefield s.rows s.cols) = some [(0, 0)]
  ∧ c1Chain.map (fun s => decide ((2, 2) ∈ mineCells s.winefield s.rows s.cols))
      = some false := by
  decide

/-- A 1 by 1 game with one wine: the single cell is a wine. -/
def demo11 : Option GameState := generateGame 1 1 1 [(0, 0)]

/-- Flag the only cell: the game is won and the whole board is revealed. -/
def c2Won : Option GameState := demo11.bind (fun t => doRightClick t 0 0)

/-- After winning, left-click the wine cell again. -/
def c2Chain : Option GameState := c2Won.bind (fun t => doLeftClick t 0 0)

/-- C2 counterexample: after the 1 by 1 game is `Won`, `do_left_click` on the
wine cell runs the loss transition and the phase changes from `Won` to
`Lost`, so `Won` is not terminal for the phase as the claim states. -/
theorem c2_counterexample :
    c2Won.map GameState.phase = some Phase.won
  ∧ c2Chain.map GameState.phase = some Phase.lost := by
  decide

/-- On the 3 by 3 one-wine board: flag the clue cell `(1, 1)`, flag the wine
`(0, 0)`, then unflag `(1, 1)`, leaving exactly the mine set flagged. -/
def c3Chain : Option GameState :=
  ((demo33.bind (fun t => doRightClick t 1 1)).bind
    (fun t => doRightClick t 0 0)).bind (fun t => doRightClick t 1 1)

/-- C3 counterexample: a toggle sequence whose net effect flags exactly the
mine set but whose final flip is a removal leaves the phase `Playing`: the
win condition is not re-evaluated after flag removals, refuting the claim. -/
theorem c3_counterexample :
    c3Chain.map GameState.flagged = some [(0, 0)]
  ∧ c3Chain.map (fun s => mineCells s.winefield s.rows s.cols) = some [(0, 0)]
  ∧ c3Chain.map GameState.phase = some Phase.playing := by
  decide

/-- C4 counterexample: flagging the single wine of the 1 by 1 game wins it,
and the win-reveal then reveals the flagged cell without clearing the flag,
so the cell `(0, 0)` is simultaneously revealed and flagged in a reachable
state. -/
theorem c4_counterexample :
    c2Won.map (fun s => decide ((0, 0) ∈ s.revealed)) = some true
  ∧ c2Won.map (fun s => decide ((0, 0) ∈ s.flagged)) = some true := by
  decide

section RevealLemmas

theorem mem_cellList {rows cols : Nat} {p : Pos} :
    p ∈ cellList rows cols ↔ p.1 < cols ∧ p.2 < rows := by
  rcases p with ⟨a, b⟩
  unfold cellList
  rw [List.mem_flatMap]
  constructor
  · rintro ⟨y, hy, hm⟩
    rw [List.mem_map] at hm
    rcases hm with ⟨x, hx, hxy⟩
    cases hxy
    exact ⟨List.mem_range.mp hx, List.mem_range.mp hy⟩
  · rintro ⟨ha, hb⟩
    exact ⟨b, List.mem_range.mpr hb, List.mem_map.mpr ⟨a, List.mem_range.mpr ha, rfl⟩⟩

theorem cellList_nodup (rows cols : Nat) : (cellList rows cols).Nodup := by
  unfold cellList
  rw [List.nodup_flatMap]
  constructor
  · intro y hy
    exact List.Nodup.map (fun a b hab => by cases hab; rfl) (List.nodup_range cols)
  · have hpw := List.pairwise_lt_range rows
    apply List.Pairwise.imp ?_ hpw
    intro y z hyz
    simp only [Function.onFun, List.Disjoint]
    intro p hp hq
    rw [List.mem_map] at hp hq
    rcases hp with ⟨a, ha, rfl⟩
    rcases hq with ⟨b, hb, hba⟩
    cases hba
    exact absurd rfl (Nat.ne_of_lt hyz)

theorem revealCell_some_inv {s t : GameState} {x y : Nat}
    (h : revealCell s x y = some t) :
    (t = s ∧ (x, y) ∈ s.revealed) ∨
      (t = { s with revealed := s.revealed ++ [(x, y)] } ∧ (x, y) ∉ s.revealed ∧
        y < s.rows ∧ x < s.cols) := by
  unfold revealCell at h
  by_cases hm : (x, y) ∈ s.revealed
  · rw [if_pos hm] at h
    injection h with h
    exact Or.inl ⟨h.symm, hm⟩
  · rw [if_neg hm] at h
    by_cases hb : y < s.rows ∧ x < s.cols
    · rw [if_pos hb] at h
      injection h with h
      exact Or.inr ⟨h.symm, hm, hb⟩
    · rw [if_neg hb] at h
      cases h

theorem revealCell_mem {s : GameState} {x y : Nat} (hm : (x, y) ∈ s.revealed) :
    revealCell s x y = some s := by
  unfold revealCell
  rw [if_pos hm]

theorem revealFold_inv :
    ∀ (l : List Pos) (s t : GameState),
      l.foldlM (fun t p => revealCell t p.1 p.2) s = some t →
      t.rows = s.rows ∧ t.cols = s.cols ∧ t.wines = s.wines ∧
      t.winefield = s.winefield ∧ t.flagged = s.flagged ∧ t.phase = s.phase ∧
      (∀ p, p ∈ t.revealed ↔ p ∈ s.revealed ∨ p ∈ l) := by
  intro l
  induction l with
  | nil =>
    intro s t h
    injection h with h
    subst h
    simp
  | cons a l ih =>
    intro s t h
    rw [List.foldlM_cons] at h
    rcases hc : revealCell s a.1 a.2 with _ | u
    · rw [hc] at h; cases h
    · rw [hc] at h
      simp only [Option.bind_eq_bind, Option.some_bind] at h
      have hu := ih u t h
      rcases revealCell_some_inv hc with ⟨rfl, hmem⟩ | ⟨rfl, hmem, hb⟩
      · refine ⟨hu.1, hu.2.1, hu.2.2.1, hu.2.2.2.1, hu.2.2.2.2.1, hu.2.2.2.2.2.1, ?_⟩
        intro p
        rw [hu.2.2.2.2.2.2 p, List.mem_cons]
        constructor
        · rintro (hp | hp)
          · exact Or.inl hp
          · exact Or.inr (Or.inr hp)
        · rintro (hp | rfl | hp)
          · exact Or.inl hp
          · exact Or.inl hmem
          · exact Or.inr hp
      · refine ⟨hu.1, hu.2.1, hu.2.2.1, hu.2.2.2.1, hu.2.2.2.2.1, hu.2.2.2.2.2.1, ?_⟩
        intro p
        rw [hu.2.2.2.2.2.2 p]
        simp only [List.mem_append, List.mem_singleton, List.mem_cons, List.not_mem_nil,
          or_false]
        tauto

theorem revealFold_id :
    ∀ (l : List Pos) (s : GameState), (∀ p ∈ l, p ∈ s.revealed) →
      l.foldlM (fun t p => revealCell t p.1 p.2) s = some s := by
  intro l
  induction l with
  | nil => intro s _; rfl
  | cons a l ih =>
    intro s h
    rw [List.foldlM_cons, revealCell_mem (h a (List.mem_cons_self a l))]
    simp only [Option.bind_eq_bind, Option.some_bind]
    exact ih s (fun p hp => h p (List.mem_cons_of_mem a hp))

theorem revealFold_total :
    ∀ (l : List Pos) (s : GameState), (∀ p ∈ l, p.2 < s.rows ∧ p.1 < s.cols) →
      ∃ t, l.foldlM (fun t p => revealCell t p.1 p.2) s = some t := by
  intro l
  induction l with
  | nil => intro s _; exact ⟨s, rfl⟩
  | cons a l ih =>
    intro s h
    have ha := h a (List.mem_cons_self a l)
    have hstep : ∃ u, revealCell s a.1 a.2 = some u ∧ u.rows = s.rows ∧ u.cols = s.cols := by
      unfold revealCell
      by_cases hm : (a.1, a.2) ∈ s.revealed
      · rw [if_pos hm]; exact ⟨s, rfl, rfl, rfl⟩
      · rw [if_neg hm, if_pos ha]
        exact ⟨_, rfl, rfl, rfl⟩
    rcases hstep with ⟨u, hu, hur, huc⟩
    rcases ih u (fun p hp => by rw [hur, huc]; exact h p (List.mem_cons_of_mem a hp)) with ⟨t, ht⟩
    refine ⟨t, ?_⟩
    rw [List.foldlM_cons, hu]
    simp only [Option.bind_eq_bind, Option.some_bind]
    exact ht

theorem revealAllCells_eq {s t : GameState}
    (h : revealAllCells s = some t) :
    t.rows = s.rows ∧ t.cols = s.cols ∧ t.wines = s.wines ∧
    t.winefield = s.winefield ∧ t.flagged = s.flagged ∧ t.phase = s.phase ∧
    (∀ p : Pos, p ∈ t.revealed ↔ p ∈ s.revealed ∨ (p.1 < s.cols ∧ p.2 < s.rows)) := by
  unfold revealAllCells at h
  have hh := revealFold_inv _ _ _ h
  refine ⟨hh.1, hh.2.1, hh.2.2.1, hh.2.2.2.1, hh.2.2.2.2.1, hh.2.2.2.2.2.1, ?_⟩
  intro p
  rw [hh.2.2.2.2.2.2 p, mem_cellList]

theorem revealAllCells_total (s : GameState) : ∃ t, revealAllCells s = some t := by
  unfold revealAllCells
  exact revealFold_total _ s (fun p hp => by
    have := mem_cellList.mp hp
    exact ⟨this.2, this.1⟩)

end RevealLemmas

theorem bounds_of_valueAt {w : Winefield} {rows cols x y : Nat} {v : Int}
    (hwf : WellFormed w rows cols) (h : valueAt w x y = some v) :
    x < cols ∧ y < rows := by
  unfold valueAt at h
  rcases hy : w[y]? with _ | row
  · rw [hy] at h; cases h
  · rw [hy] at h
    simp only [Option.some_bind] at h
    have hylt : y < w.length := by
      by_contra hc
      rw [List.getElem?_eq_none (by omega)] at hy
      cases hy
    have hrowmem : row ∈ w := by
      have := List.getElem?_eq_some.mp hy
      rcases this with ⟨hlt, hget⟩
      exact hget ▸ List.getElem_mem hlt
    have hxlt : x < row.length := by
      by_contra hc
      rw [List.getElem?_eq_none (by omega)] at h
      cases h
    exact ⟨hwf.2 row hrowmem ▸ hxlt, hwf.1 ▸ hylt⟩

theorem valueAt_total {w : Winefield} {rows cols x y : Nat}
    (hwf : WellFormed w rows cols) (hx : x < cols) (hy : y < rows) :
    ∃ v, valueAt w x y = some v := by
  unfold valueAt
  have hylt : y < w.length := hwf.1 ▸ hy
  rcases List.getElem?_eq_some.mpr ⟨hylt, rfl⟩ with hget
  rw [hget]
  simp only [Option.some_bind]
  have hrow : w[y] ∈ w := List.getElem_mem hylt
  have hxlt : x < w[y].length := hwf.2 _ hrow ▸ hx
  exact ⟨w[y][x], List.getElem?_eq_some.mpr ⟨hxlt, rfl⟩⟩

/-- C8: during phase `Playing`, revealing a cell whose value is `-1`
transitions the phase to `Lost`, and afterwards every in-bounds cell of the
board is revealed. -/
theorem c8_mine_click_loses {s s' : GameState} {x y : Nat}
    (hph : s.phase = Phase.playing)
    (hv : valueAt s.winefield x y = some (-1))
    (h : doLeftClick s x y = some s') :
    s'.phase = Phase.lost ∧ ∀ a b, a < s.cols → b < s.rows → (a, b) ∈ s'.revealed := by
  unfold doLeftClick at h
  rw [hv] at h
  simp only [Option.some_bind, if_pos rfl] at h
  unfold setState at h
  have hh := revealAllCells_eq h
  refine ⟨hh.2.2.2.2.2.1, ?_⟩
  intro a b ha hb
  exact (hh.2.2.2.2.2.2 (a, b)).mpr (Or.inr ⟨ha, hb⟩)

/-- Witness for C8 on the generated 1 by 1 one-wine board. -/
theorem c8_mine_click_loses_witness :
    ((⟨1, 1, 1, [[-1]], [], [], Phase.playing⟩ : GameState).phase = Phase.playing
      ∧ valueAt [[-1]] 0 0 = some (-1)
      ∧ doLeftClick ⟨1, 1, 1, [[-1]], [], [], Phase.playing⟩ 0 0
          = some ⟨1, 1, 1, [[-1]], [(0, 0)], [], Phase.lost⟩)
  ∧ ((⟨1, 1, 1, [[-1]], [(0, 0)], [], Phase.lost⟩ : GameState).phase = Phase.lost
      ∧ ∀ a b, a < 1 → b < 1 →
          (a, b) ∈ (⟨1, 1, 1, [[-1]], [(0, 0)], [], Phase.lost⟩ : GameState).revealed) :=
  ⟨⟨by decide, by decide, by decide⟩,
    @c8_mine_click_loses ⟨1, 1, 1, [[-1]], [], [], Phase.playing⟩
      ⟨1, 1, 1, [[-1]], [(0, 0)], [], Phase.lost⟩ 0 0
      (by decide) (by decide) (by decide)⟩

/-- C4 amended: right-click on an already-revealed cell is a complete no-op,
so flags are only ever added to unrevealed cells; the counterexample shows
that a flagged cell can nevertheless become revealed later, because
revealing never clears flags. -/
theorem c4_amended {s : GameState} {x y : Nat} (hm : (x, y) ∈ s.revealed) :
    doRightClick s x y = some s := by
  unfold doRightClick
  rw [if_pos hm]

/-- Witness for the amended C4. -/
theorem c4_amended_witness :
    (0, 0) ∈ (⟨1, 1, 1, [[-1]], [(0, 0)], [(0, 0)], Phase.won⟩ : GameState).revealed
  ∧ doRightClick ⟨1, 1, 1, [[-1]], [(0, 0)], [(0, 0)], Phase.won⟩ 0 0
      = some ⟨1, 1, 1, [[-1]], [(0, 0)], [(0, 0)], Phase.won⟩ :=
  ⟨by decide, c4_amended (by decide)⟩

section CrawlInvariants

theorem crawlWork_subset {w : Winefield} {cols rows : Nat} :
    ∀ (stack info : List Pos), ∀ {r : List Pos},
      crawlWork w cols rows stack info = some r → info ⊆ r := by
  intro stack info
  induction stack, info using crawlWork.induct w cols rows with
  | case1 info =>
    intro r h
    rw [crawlWork_nil] at h
    injection h with h
    exact h ▸ List.Subset.refl info
  | case2 x y ps info hv =>
    intro r h
    rw [crawlWork_cons_none hv] at h
    cases h
  | case3 x y ps info v hv hm ih =>
    intro r h
    rw [crawlWork_cons_mem hv hm] at h
    exact ih h
  | case4 x y ps info v hv hm hv0 ih =>
    intro r h
    rw [crawlWork_cons_nonzero hv hv0 hm] at h
    exact fun p hp => ih h (List.mem_append_left _ hp)
  | case5 x y ps info v hv hm hv0 hn =>
    intro r h
    rw [not_not] at hv0
    subst hv0
    rw [crawlWork_cons_zero hv hm, hn] at h
    cases h
  | case6 x y ps info v hv hm hv0 nbrs hn ih =>
    intro r h
    rw [not_not] at hv0
    subst hv0
    rw [crawlWork_cons_zero hv hm, hn] at h
    exact fun p hp => ih h (List.mem_append_left _ hp)

theorem crawlWork_mem_value {w : Winefield} {cols rows : Nat} :
    ∀ (stack info : List Pos), ∀ {r : List Pos},
      crawlWork w cols rows stack info = some r →
      ∀ p ∈ r, p ∈ info ∨ ∃ v, valueAt w p.1 p.2 = some v := by
  intro stack info
  induction stack, info using crawlWork.induct w cols rows with
  | case1 info =>
    intro r h p hp
    rw [crawlWork_nil] at h
    injection h with h
    exact Or.inl (h ▸ hp)
  | case2 x y ps info hv =>
    intro r h
    rw [crawlWork_cons_none hv] at h
    cases h
  | case3 x y ps info v hv hm ih =>
    intro r h
    rw [crawlWork_cons_mem hv hm] at h
    exact ih h
  | case4 x y ps info v hv hm hv0 ih =>
    intro r h p hp
    rw [crawlWork_cons_nonzero hv hv0 hm] at h
    rcases ih h p hp with hin | hval
    · rcases List.mem_append.mp hin with hin | hin
      · exact Or.inl hin
      · rw [List.mem_singleton] at hin
        subst hin
        exact Or.inr ⟨v, hv⟩
    · exact Or.inr hval
  | case5 x y ps info v hv hm hv0 hn =>
    intro r h
    rw [not_not] at hv0
    subst hv0
    rw [crawlWork_cons_zero hv hm, hn] at h
    cases h
  | case6 x y ps info v hv hm hv0 nbrs hn ih =>
    intro r h p hp
    rw [not_not] at hv0
    subst hv0
    rw [crawlWork_cons_zero hv hm, hn] at h
    rcases ih h p hp with hin | hval
    · rcases List.mem_append.mp hin with hin | hin
      · exact Or.inl hin
      · rw [List.mem_singleton] at hin
        subst hin
        exact Or.inr ⟨0, hv⟩
    · exact Or.inr hval

theorem crawlWork_nodup {w : Winefield} {cols rows : Nat} :
    ∀ (stack info : List Pos), ∀ {r : List Pos},
      crawlWork w cols rows stack info = some r → info.Nodup → r.Nodup := by
  intro stack info
  induction stack, info using crawlWork.induct w cols rows with
  | case1 info =>
    intro r h hnd
    rw [crawlWork_nil] at h
    injection h with h
    exact h ▸ hnd
  | case2 x y ps info hv =>
    intro r h
    rw [crawlWork_cons_none hv] at h
    cases h
  | case3 x y ps info v hv hm ih =>
    intro r h
    rw [crawlWork_cons_mem hv hm] at h
    exact ih h
  | case4 x y ps info v hv hm hv0 ih =>
    intro r h hnd
    rw [crawlWork_cons_nonzero hv hv0 hm] at h
    exact ih h (by
      rw [List.nodup_append]
      exact ⟨hnd, List.nodup_singleton _, by
        intro p hp hq
        rw [List.mem_singleton] at hq
        subst hq
        exact hm hp⟩)
  | case5 x y ps info v hv hm hv0 hn =>
    intro r h
    rw [not_not] at hv0
    subst hv0
    rw [crawlWork_cons_zero hv hm, hn] at h
    cases h
  | case6 x y ps info v hv hm hv0 nbrs hn ih =>
    intro r h hnd
    rw [not_not] at hv0
    subst hv0
    rw [crawlWork_cons_zero hv hm, hn] at h
    exact ih h (by
      rw [List.nodup_append]
      exact ⟨hnd, List.nodup_singleton _, by
        intro p hp hq
        rw [List.mem_singleton] at hq
        subst hq
        exact hm hp⟩)

end CrawlInvariants

/-- C7: started from any in-bounds cell of a well-formed board, the crawl
records only in-bounds positions and records no position twice. -/
theorem c7_crawl_safe {w : Winefield} {rows cols x y : Nat} {l : List Pos}
    (hwf : WellFormed w rows cols) (hx : x < cols) (hy : y < rows)
    (h : crawlBlankField w cols rows x y = some l) :
    (∀ p ∈ l, p.1 < cols ∧ p.2 < rows) ∧ l.Nodup := by
  constructor
  · intro p hp
    rcases crawlWork_mem_value _ _ h p hp with hin | ⟨v, hval⟩
    · cases hin
    · exact bounds_of_valueAt hwf hval
  · exact crawlWork_nodup _ _ h (List.nodup_nil)

/-- Witness for C7: the crawl of the 3 by 3 one-wine board from `(2, 2)`. -/
theorem c7_crawl_safe_witness :
    (WellFormed [[-1, 1, 0], [1, 1, 0], [0, 0, 0]] 3 3 ∧ 2 < 3 ∧ 2 < 3
      ∧ crawlBlankField [[-1, 1, 0], [1, 1, 0], [0, 0, 0]] 3 3 2 2
          = some [(2, 2), (1, 1), (2, 1), (1, 0), (2, 0), (1, 2), (0, 1), (0, 2)])
  ∧ ((∀ p ∈ ([(2, 2), (1, 1), (2, 1), (1, 0), (2, 0), (1, 2), (0, 1), (0, 2)] : List Pos),
        p.1 < 3 ∧ p.2 < 3)
      ∧ ([(2, 2), (1, 1), (2, 1), (1, 0), (2, 0), (1, 2), (0, 1), (0, 2)] : List Pos).Nodup) :=
  ⟨⟨by decide, by decide, by decide, crawlFuel_sound 40 (by decide)⟩,
    @c7_crawl_safe [[-1, 1, 0], [1, 1, 0], [0, 0, 0]] 3 3 2 2
      [(2, 2), (1, 1), (2, 1), (1, 0), (2, 0), (1, 2), (0, 1), (0, 2)]
      (by decide) (by decide) (by decide) (crawlFuel_sound 40 (by decide))⟩

/-- C2 amended: in any state in which every in-bounds cell is revealed (as
after a `Won` or `Lost` transition), right-click is a complete no-op and
left-click changes no cell's revealed or flagged status and leaves the board
untouched; the phase, however, is not protected (see the counterexample:
left-clicking a wine after `Won` still runs the loss transition). -/
theorem c2_amended {s : GameState}
    (hwf : WellFormed s.winefield s.rows s.cols)
    (hall : ∀ a, a < s.cols → ∀ b, b < s.rows → (a, b) ∈ s.revealed) :
    (∀ x y, x < s.cols → y < s.rows → doRightClick s x y = some s)
  ∧ (∀ x y s', doLeftClick s x y = some s' →
      s'.revealed = s.revealed ∧ s'.flagged = s.flagged ∧
      s'.winefield = s.winefield) := by
  have hcells : ∀ p ∈ cellList s.rows s.cols, p ∈ s.revealed := by
    intro p hp
    have := mem_cellList.mp hp
    exact hall p.1 this.1 p.2 this.2
  constructor
  · intro x y hx hy
    unfold doRightClick
    rw [if_pos (hall x hx y hy)]
  · intro x y s' h
    unfold doLeftClick at h
    rcases hv : valueAt s.winefield x y with _ | v
    · rw [hv] at h; cases h
    · rw [hv] at h
      simp only [Option.some_bind] at h
      have hb := bounds_of_valueAt hwf hv
      have hmem : (x, y) ∈ s.revealed := hall x hb.1 y hb.2
      by_cases hvm : v = -1
      · subst hvm
        rw [if_pos rfl] at h
        unfold setState at h
        unfold revealAllCells at h
        have hid := revealFold_id (cellList s.rows s.cols)
          { s with phase := Phase.lost } hcells
        rw [hid] at h
        injection h with h
        subst h
        exact ⟨rfl, rfl, rfl⟩
      · rw [if_neg hvm] at h
        by_cases hvp : v > 0
        · rw [if_pos hvp] at h
          rw [revealCell_mem hmem] at h
          injection h with h
          subst h
          exact ⟨rfl, rfl, rfl⟩
        · rw [if_neg hvp] at h
          unfold revealEmptyField at h
          rcases hc : crawlBlankField s.winefield s.cols s.rows x y with _ | empties
          · rw [hc] at h; cases h
          · rw [hc] at h
            simp only [Option.some_bind] at h
            have hemp : ∀ p ∈ empties, p ∈ s.revealed := by
              intro p hp
              rcases crawlWork_mem_value _ _ hc p hp with hin | ⟨u, hu⟩
              · cases hin
              · have := bounds_of_valueAt hwf hu
                exact hall p.1 this.1 p.2 this.2
            rw [revealFold_id empties s hemp] at h
            injection h with h
            subst h
            exact ⟨rfl, rfl, rfl⟩

/-- Witness for the amended C2, on the fully revealed lost 1 by 1 board. -/
theorem c2_amended_witness :
    (WellFormed [[-1]] 1 1
      ∧ (∀ a, a < 1 → ∀ b, b < 1 →
          (a, b) ∈ (⟨1, 1, 1, [[-1]], [(0, 0)], [], Phase.lost⟩ : GameState).revealed))
  ∧ ((∀ x y, x < 1 → y < 1 →
        doRightClick ⟨1, 1, 1, [[-1]], [(0, 0)], [], Phase.lost⟩ x y
          = some ⟨1, 1, 1, [[-1]], [(0, 0)], [], Phase.lost⟩)
    ∧ (∀ x y s', doLeftClick ⟨1, 1, 1, [[-1]], [(0, 0)], [], Phase.lost⟩ x y = some s' →
        s'.revealed = [(0, 0)] ∧ s'.flagged = [] ∧ s'.winefield = [[-1]])) :=
  ⟨⟨by decide, by decide⟩,
    @c2_amended ⟨1, 1, 1, [[-1]], [(0, 0)], [], Phase.lost⟩ (by decide) (by decide)⟩

/-- C9: left-click reveal is idempotent on non-wine cells: a second
`do_left_click` on the same cell leaves the resulting state unchanged (for a
clue cell the single reveal is skipped, for a blank cell the crawl recomputes
the same region, all of which is already revealed). -/
theorem c9_reveal_idempotent {s s' : GameState} {x y : Nat} {v : Int}
    (hv : valueAt s.winefield x y = some v) (hvm : v ≠ -1)
    (h : doLeftClick s x y = some s') :
    doLeftClick s' x y = some s' := by
  unfold doLeftClick at h
  rw [hv] at h
  simp only [Option.some_bind] at h
  rw [if_neg hvm] at h
  by_cases hvp : v > 0
  · rw [if_pos hvp] at h
    rcases revealCell_some_inv h with ⟨rfl, hmem⟩ | ⟨rfl, hmem, hb⟩
    · unfold doLeftClick
      rw [hv]
      simp only [Option.some_bind]
      rw [if_neg hvm, if_pos hvp]
      exact revealCell_mem hmem
    · unfold doLeftClick
      rw [show ({ s with revealed := s.revealed ++ [(x, y)] } : GameState).winefield
            = s.winefield from rfl, hv]
      simp only [Option.some_bind]
      rw [if_neg hvm, if_pos hvp]
      exact revealCell_mem (by
        show (x, y) ∈ s.revealed ++ [(x, y)]
        exact List.mem_append_right _ (List.mem_singleton.mpr rfl))
  · rw [if_neg hvp] at h
    unfold revealEmptyField at h
    rcases hc : crawlBlankField s.winefield s.cols s.rows x y with _ | empties
    · rw [hc] at h; cases h
    · rw [hc] at h
      simp only [Option.some_bind] at h
      have hinv := revealFold_inv _ _ _ h
      unfold doLeftClick
      rw [hinv.2.2.2.1, hv]
      simp only [Option.some_bind]
      rw [if_neg hvm, if_neg hvp]
      unfold revealEmptyField
      rw [hinv.2.2.2.1, hinv.1, hinv.2.1, hc]
      simp only [Option.some_bind]
      exact revealFold_id empties s' (fun p hp =>
        (hinv.2.2.2.2.2.2 p).mpr (Or.inr hp))

/-- Witness for C9: double left-click on the blank corner `(2, 2)` of the
3 by 3 one-wine board. -/
theorem c9_reveal_idempotent_witness :
    (valueAt [[-1, 1, 0], [1, 1, 0], [0, 0, 0]] 2 2 = some 0
      ∧ (0 : Int) ≠ -1
      ∧ doLeftClick ⟨3, 3, 1, [[-1, 1, 0], [1, 1, 0], [0, 0, 0]], [], [], Phase.playing⟩ 2 2
          = some ⟨3, 3, 1, [[-1, 1, 0], [1, 1, 0], [0, 0, 0]],
              [(2, 2), (1, 1), (2, 1), (1, 0), (2, 0), (1, 2), (0, 1), (0, 2)], [],
              Phase.playing⟩)
  ∧ doLeftClick ⟨3, 3, 1, [[-1, 1, 0], [1, 1, 0], [0, 0, 0]],
        [(2, 2), (1, 1), (2, 1), (1, 0), (2, 0), (1, 2), (0, 1), (0, 2)], [],
        Phase.playing⟩ 2 2
      = some ⟨3, 3, 1, [[-1, 1, 0], [1, 1, 0], [0, 0, 0]],
          [(2, 2), (1, 1), (2, 1), (1, 0), (2, 0), (1, 2), (0, 1), (0, 2)], [],
          Phase.playing⟩ :=
  have hcrawl : crawlBlankField [[-1, 1, 0], [1, 1, 0], [0, 0, 0]] 3 3 2 2
      = some [(2, 2), (1, 1), (2, 1), (1, 0), (2, 0), (1, 2), (0, 1), (0, 2)] :=
    crawlFuel_sound 40 (by decide)
  have h : doLeftClick ⟨3, 3, 1, [[-1, 1, 0], [1, 1, 0], [0, 0, 0]], [], [], Phase.playing⟩ 2 2
      = some ⟨3, 3, 1, [[-1, 1, 0], [1, 1, 0], [0, 0, 0]],
          [(2, 2), (1, 1), (2, 1), (1, 0), (2, 0), (1, 2), (0, 1), (0, 2)], [],
          Phase.playing⟩ := by
    show revealEmptyField ⟨3, 3, 1, [[-1, 1, 0], [1, 1, 0], [0, 0, 0]], [], [], Phase.playing⟩ 2 2
        = some ⟨3, 3, 1, [[-1, 1, 0], [1, 1, 0], [0, 0, 0]],
            [(2, 2), (1, 1), (2, 1), (1, 0), (2, 0), (1, 2), (0, 1), (0, 2)], [],
            Phase.playing⟩
    rw [revealEmptyField_eq hcrawl]
    decide
  ⟨⟨by decide, by decide, h⟩,
    @c9_reveal_idempotent ⟨3, 3, 1, [[-1, 1, 0], [1, 1, 0], [0, 0, 0]], [], [], Phase.playing⟩
      ⟨3, 3, 1, [[-1, 1, 0], [1, 1, 0], [0, 0, 0]],
        [(2, 2), (1, 1), (2, 1), (1, 0), (2, 0), (1, 2), (0, 1), (0, 2)], [], Phase.playing⟩
      2 2 0 (by decide) (by decide) h⟩

section RegionLemmas

theorem crawlWork_reach {w : Winefield} {cols rows : Nat} (s0 : Pos) :
    ∀ (stack info : List Pos),
      (∀ p ∈ stack, ZeroPath w cols rows s0 p) →
      (∀ p ∈ info, ZeroPath w cols rows s0 p) →
      ∀ {r : List Pos}, crawlWork w cols rows stack info = some r →
        ∀ p ∈ r, ZeroPath w cols rows s0 p := by
  intro stack info
  induction stack, info using crawlWork.induct w cols rows with
  | case1 info =>
    intro _ hinfo r h p hp
    rw [crawlWork_nil] at h
    injection h with h
    exact hinfo p (h ▸ hp)
  | case2 x y ps info hv =>
    intro _ _ r h
    rw [crawlWork_cons_none hv] at h
    cases h
  | case3 x y ps info v hv hm ih =>
    intro hstack hinfo r h
    rw [crawlWork_cons_mem hv hm] at h
    exact ih (fun p hp => hstack p (List.mem_cons_of_mem _ hp)) hinfo h
  | case4 x y ps info v hv hm hv0 ih =>
    intro hstack hinfo r h
    rw [crawlWork_cons_nonzero hv hv0 hm] at h
    refine ih (fun p hp => hstack p (List.mem_cons_of_mem _ hp)) ?_ h
    intro p hp
    rcases List.mem_append.mp hp with hp | hp
    · exact hinfo p hp
    · rw [List.mem_singleton] at hp
      subst hp
      exact hstack (x, y) (List.mem_cons_self _ _)
  | case5 x y ps info v hv hm hv0 hn =>
    intro _ _ r h
    rw [not_not] at hv0
    subst hv0
    rw [crawlWork_cons_zero hv hm, hn] at h
    cases h
  | case6 x y ps info v hv hm hv0 nbrs hn ih =>
    intro hstack hinfo r h
    rw [not_not] at hv0
    subst hv0
    rw [crawlWork_cons_zero hv hm, hn] at h
    have hxy : ZeroPath w cols rows s0 (x, y) := hstack (x, y) (List.mem_cons_self _ _)
    refine ih ?_ ?_ h
    · intro p hp
      rcases List.mem_append.mp hp with hp | hp
      · exact Relation.ReflTransGen.tail hxy ⟨hv, nbrs, hn, hp⟩
      · exact hstack p (List.mem_cons_of_mem _ hp)
    · intro p hp
      rcases List.mem_append.mp hp with hp | hp
      · exact hinfo p hp
      · rw [List.mem_singleton] at hp
        subst hp
        exact hxy

/-- The closure invariant of the crawl: every blank cell already recorded has
all its neighbors recorded or pending; on termination the recorded set is
closed under expansion from blanks. -/
theorem crawlWork_closed {w : Winefield} {cols rows : Nat} :
    ∀ (stack info : List Pos),
      (∀ p ∈ info, valueAt w p.1 p.2 = some 0 →
        ∀ l, getNeighbors cols rows p.1 p.2 = some l →
          ∀ q ∈ l, q ∈ info ∨ q ∈ stack) →
      ∀ {r : List Pos}, crawlWork w cols rows stack info = some r →
        ∀ p ∈ r, valueAt w p.1 p.2 = some 0 →
          ∀ l, getNeighbors cols rows p.1 p.2 = some l → ∀ q ∈ l, q ∈ r := by
  intro stack info
  induction stack, info using crawlWork.induct w cols rows with
  | case1 info =>
    intro hinv r h
    rw [crawlWork_nil] at h
    injection h with h
    subst h
    intro p hp h0 l hl q hq
    rcases hinv p hp h0 l hl q hq with hin | hin
    · exact hin
    · cases hin
  | case2 x y ps info hv =>
    intro _ r h
    rw [crawlWork_cons_none hv] at h
    cases h
  | case3 x y ps info v hv hm ih =>
    intro hinv r h
    rw [crawlWork_cons_mem hv hm] at h
    refine ih ?_ h
    intro p hp h0 l hl q hq
    rcases hinv p hp h0 l hl q hq with hin | hin
    · exact Or.inl hin
    · rcases List.mem_cons.mp hin with rfl | hin
      · exact Or.inl hm
      · exact Or.inr hin
  | case4 x y ps info v hv hm hv0 ih =>
    intro hinv r h
    rw [crawlWork_cons_nonzero hv hv0 hm] at h
    refine ih ?_ h
    intro p hp h0 l hl q hq
    rcases List.mem_append.mp hp with hp | hp
    · rcases hinv p hp h0 l hl q hq with hin | hin
      · exact Or.inl (List.mem_append_left _ hin)
      · rcases List.mem_cons.mp hin with rfl | hin
        · exact Or.inl (List.mem_append_right _ (List.mem_singleton.mpr rfl))
        · exact Or.inr hin
    · rw [List.mem_singleton] at hp
      subst hp
      rw [hv] at h0
      injection h0 with h0
      exact absurd h0 hv0
  | case5 x y ps info v hv hm hv0 hn =>
    intro _ r h
    rw [not_not] at hv0
    subst hv0
    rw [crawlWork_cons_zero hv hm, hn] at h
    cases h
  | case6 x y ps info v hv hm hv0 nbrs hn ih =>
    intro hinv r h
    rw [not_not] at hv0
    subst hv0
    rw [crawlWork_cons_zero hv hm, hn] at h
    refine ih ?_ h
    intro p hp h0 l hl q hq
    rcases List.mem_append.mp hp with hp | hp
    · rcases hinv p hp h0 l hl q hq with hin | hin
      · exact Or.inl (List.mem_append_left _ hin)
      · rcases List.mem_cons.mp hin with rfl | hin
        · exact Or.inl (List.mem_append_right _ (List.mem_singleton.mpr rfl))
        · exact Or.inr (List.mem_append_right _ hin)
    · rw [List.mem_singleton] at hp
      subst hp
      rw [hn] at hl
      injection hl with hl
      subst hl
      exact Or.inr (List.mem_append_left _ hq)

theorem crawlBlankField_start_mem {w : Winefield} {cols rows x y : Nat} {r : List Pos}
    (h : crawlBlankField w cols rows x y = some r) : (x, y) ∈ r := by
  unfold crawlBlankField at h
  rcases hv : valueAt w x y with _ | v
  · rw [crawlWork_cons_none hv] at h; cases h
  · by_cases hv0 : v = 0
    · subst hv0
      rw [crawlWork_cons_zero hv (List.not_mem_nil _)] at h
      rcases hn : getNeighbors cols rows x y with _ | nbrs
      · rw [hn] at h; cases h
      · rw [hn] at h
        exact crawlWork_subset _ _ h (List.mem_append_right _ (List.mem_singleton.mpr rfl))
    · rw [crawlWork_cons_nonzero hv hv0 (List.not_mem_nil _)] at h
      exact crawlWork_subset _ _ h (List.mem_append_right _ (List.mem_singleton.mpr rfl))

end RegionLemmas

/-- C6: the crawl started at a blank cell computes exactly the contiguous
region of connected blanks together with its border (everything reachable by
expansion steps out of blank cells, which reveals bordering clue cells but
never expands from them); from a nonzero cell it computes just that cell; and
`_reveal_empty_field` marks revealed exactly the crawled positions. -/
theorem c6_flood_fill {s : GameState} {x y : Nat} {l : List Pos}
    (hc : crawlBlankField s.winefield s.cols s.rows x y = some l) :
    (valueAt s.winefield x y = some 0 →
      ∀ q, q ∈ l ↔ ZeroPath s.winefield s.cols s.rows (x, y) q)
  ∧ (∀ v, valueAt s.winefield x y = some v → v ≠ 0 → l = [(x, y)])
  ∧ (∀ s', revealEmptyField s x y = some s' →
      ∀ p, p ∈ s'.revealed ↔ p ∈ s.revealed ∨ p ∈ l) := by
  refine ⟨?_, ?_, ?_⟩
  · intro h0 q
    constructor
    · intro hq
      refine crawlWork_reach (x, y) _ _ ?_ ?_ hc q hq
      · intro p hp
        rw [List.mem_singleton] at hp
        subst hp
        exact Relation.ReflTransGen.refl
      · intro p hp
        cases hp
    · intro hq
      have hstart : (x, y) ∈ l := crawlBlankField_start_mem hc
      have hclosed := crawlWork_closed _ _ (fun p hp => by cases hp) hc
      induction hq with
      | refl => exact hstart
      | tail hab hbc ih =>
        rcases hbc with ⟨hb0, nbrs, hn, hmem⟩
        exact hclosed _ ih hb0 nbrs hn _ hmem
  · intro v hv hv0
    unfold crawlBlankField at hc
    rw [crawlWork_cons_nonzero hv hv0 (List.not_mem_nil _), crawlWork_nil] at hc
    injection hc with hc
    exact hc.symm
  · intro s' h p
    unfold revealEmptyField at h
    rw [hc] at h
    simp only [Option.some_bind] at h
    exact (revealFold_inv _ _ _ h).2.2.2.2.2.2 p

/-- Witness for C6 on the 3 by 3 one-wine board, crawling from the blank
corner `(2, 2)`. -/
theorem c6_flood_fill_witness :
    crawlBlankField [[-1, 1, 0], [1, 1, 0], [0, 0, 0]] 3 3 2 2
        = some [(2, 2), (1, 1), (2, 1), (1, 0), (2, 0), (1, 2), (0, 1), (0, 2)]
  ∧ (valueAt [[-1, 1, 0], [1, 1, 0], [0, 0, 0]] 2 2 = some 0 →
      ∀ q, q ∈ ([(2, 2), (1, 1), (2, 1), (1, 0), (2, 0), (1, 2), (0, 1), (0, 2)] : List Pos)
        ↔ ZeroPath [[-1, 1, 0], [1, 1, 0], [0, 0, 0]] 3 3 (2, 2) q) :=
  have hc : crawlBlankField [[-1, 1, 0], [1, 1, 0], [0, 0, 0]] 3 3 2 2
      = some [(2, 2), (1, 1), (2, 1), (1, 0), (2, 0), (1, 2), (0, 1), (0, 2)] :=
    crawlFuel_sound 40 (by decide)
  ⟨hc, (@c6_flood_fill ⟨3, 3, 1, [[-1, 1, 0], [1, 1, 0], [0, 0, 0]], [], [], Phase.playing⟩
      2 2 [(2, 2), (1, 1), (2, 1), (1, 0), (2, 0), (1, 2), (0, 1), (0, 2)] hc).1⟩

section BoardLemmas

/-- Shape (row structure) preservation under `setCell`. -/
theorem setCell_length (w : Winefield) (x y : Nat) (v : Int) :
    (setCell w x y v).length = w.length := List.length_set w y _

theorem setCell_row_length (w : Winefield) (x y : Nat) (v : Int) (i : Nat) :
    ((setCell w x y v).getD i []).length = (w.getD i []).length := by
  unfold setCell
  by_cases hiy : y = i
  · subst hiy
    by_cases hy : y < w.length
    · rw [List.getD_eq_getElem?_getD, List.getElem?_set_eq (by simpa using hy)]
      rw [List.getD_eq_getElem?_getD]
      rcases hrow : w[y]? with _ | row
      · rw [List.getElem?_eq_none_iff] at hrow
        omega
      · have : w.getD y [] = row := by rw [List.getD_eq_getElem?_getD, hrow]; rfl
        simp [this, List.length_set]
    · rw [List.set_eq_of_length_le (by omega)]
  · rw [List.getD_eq_getElem?_getD, List.getElem?_set_ne hiy, List.getD_eq_getElem?_getD]

theorem wellFormed_setCell {w : Winefield} {rows cols : Nat} (hwf : WellFormed w rows cols)
    (x y : Nat) (v : Int) : WellFormed (setCell w x y v) rows cols := by
  by_cases hy : y < w.length
  · refine ⟨(setCell_length w x y v).trans hwf.1, ?_⟩
    intro row hrow
    unfold setCell at hrow
    rcases List.mem_or_eq_of_mem_set hrow with hmem | heq
    · exact hwf.2 _ hmem
    · subst heq
      rw [List.length_set]
      have hmem : w.getD y [] ∈ w := by
        rw [List.getD_eq_getElem?_getD, List.getElem?_eq_getElem hy]
        exact List.getElem_mem hy
      exact hwf.2 _ hmem
  · unfold setCell
    rw [List.set_eq_of_length_le (by omega)]
    exact hwf

theorem valueAt_setCell_same {w : Winefield} {x y : Nat} {u : Int}
    (hv : valueAt w x y = some u) (v : Int) :
    valueAt (setCell w x y v) x y = some v := by
  unfold valueAt at hv ⊢
  rcases hrow : w[y]? with _ | row
  · rw [hrow] at hv; cases hv
  · rw [hrow] at hv
    simp only [Option.some_bind] at hv
    have hy : y < w.length := by
      by_contra hc
      rw [List.getElem?_eq_none (by omega)] at hrow
      cases hrow
    have hx : x < row.length := by
      by_contra hc
      rw [List.getElem?_eq_none (by omega)] at hv
      cases hv
    have hgetD : w.getD y [] = row := by rw [List.getD_eq_getElem?_getD, hrow]; rfl
    unfold setCell
    rw [hgetD, List.getElem?_set_eq (by simpa using hy)]
    simp only [Option.some_bind]
    rw [List.getElem?_set_eq (by simpa using hx)]

theorem valueAt_setCell_other {w : Winefield} {x y a b : Nat}
    (hne : (a, b) ≠ (x, y)) (v : Int) :
    valueAt (setCell w x y v) a b = valueAt w a b := by
  unfold valueAt setCell
  by_cases hby : b = y
  · subst hby
    have hax : a ≠ x := by
      intro hax
      exact hne (by rw [hax])
    by_cases hb : b < w.length
    · rw [List.getElem?_set_eq (by simpa using hb)]
      simp only [Option.some_bind]
      rw [List.getElem?_set_ne (fun hc => hax hc.symm)]
      rw [List.getD_eq_getElem?_getD, List.getElem?_eq_getElem hb]
      rfl
    · rw [List.set_eq_of_length_le (by omega)]
  · rw [List.getElem?_set_ne (fun hc => hby hc.symm)]

end BoardLemmas

section NeighborLemmas

theorem getNeighbors_eq {cols rows x y : Nat} (hx : x < cols) (hy : y < rows) :
    ∃ l, getNeighbors cols rows x y = some l ∧ l.Nodup ∧
      ∀ p : Pos, p ∈ l ↔ ChebNeighbor cols rows x y p.1 p.2 := by
  have hmem0 : ∀ p : Pos,
      p ∈ (List.range' (y - 1) (min (y + 2) rows - (y - 1))).flatMap
            (fun yr => (List.range' (x - 1) (min (x + 2) cols - (x - 1))).map
              (fun xr => (xr, yr)))
        ↔ (x - 1 ≤ p.1 ∧ p.1 < min (x + 2) cols) ∧
          (y - 1 ≤ p.2 ∧ p.2 < min (y + 2) rows) := by
    intro p
    rw [List.mem_flatMap]
    constructor
    · rintro ⟨yr, hyr, hp⟩
      rw [List.mem_map] at hp
      rcases hp with ⟨xr, hxr, rfl⟩
      rw [List.mem_range'_1] at hyr hxr
      exact ⟨⟨by omega, by omega⟩, ⟨by omega, by omega⟩⟩
    · rintro ⟨⟨ha1, ha2⟩, ⟨hb1, hb2⟩⟩
      refine ⟨p.2, by rw [List.mem_range'_1]; omega, ?_⟩
      rw [List.mem_map]
      exact ⟨p.1, by rw [List.mem_range'_1]; omega, rfl⟩
  have hnd0 : ((List.range' (y - 1) (min (y + 2) rows - (y - 1))).flatMap
      (fun yr => (List.range' (x - 1) (min (x + 2) cols - (x - 1))).map
        (fun xr => (xr, yr)))).Nodup := by
    rw [List.nodup_flatMap]
    constructor
    · intro yr hyr
      exact List.Nodup.map (fun a b hab => by cases hab; rfl) (List.nodup_range' _ _)
    · apply List.Pairwise.imp ?_ (List.nodup_range' _ _)
      intro u u' huu
      simp only [Function.onFun, List.Disjoint]
      intro p hp hq
      rw [List.mem_map] at hp hq
      rcases hp with ⟨a, ha, rfl⟩
      rcases hq with ⟨b, hb, hba⟩
      cases hba
      exact huu rfl
  have hxy0 : ((x, y) : Pos) ∈ (List.range' (y - 1) (min (y + 2) rows - (y - 1))).flatMap
      (fun yr => (List.range' (x - 1) (min (x + 2) cols - (x - 1))).map
        (fun xr => (xr, yr))) := by
    rw [hmem0]
    exact ⟨⟨by omega, by omega⟩, ⟨by omega, by omega⟩⟩
  have hdef : getNeighbors cols rows x y =
      (if ((x, y) : Pos) ∈ (List.range' (y - 1) (min (y + 2) rows - (y - 1))).flatMap
          (fun yr => (List.range' (x - 1) (min (x + 2) cols - (x - 1))).map
            (fun xr => (xr, yr)))
        then some (((List.range' (y - 1) (min (y + 2) rows - (y - 1))).flatMap
          (fun yr => (List.range' (x - 1) (min (x + 2) cols - (x - 1))).map
            (fun xr => (xr, yr)))).erase (x, y))
        else none) := rfl
  refine ⟨_, by rw [hdef, if_pos hxy0], List.Nodup.erase _ hnd0, ?_⟩
  intro p
  rw [List.Nodup.mem_erase_iff hnd0, hmem0 p]
  unfold ChebNeighbor
  constructor
  · rintro ⟨hne, ⟨⟨ha1, ha2⟩, ⟨hb1, hb2⟩⟩⟩
    exact ⟨by omega, by omega, hne, by omega, by omega, by omega, by omega⟩
  · rintro ⟨h1, h2, hne, h3, h4, h5, h6⟩
    exact ⟨hne, ⟨⟨by omega, by omega⟩, ⟨by omega, by omega⟩⟩⟩

theorem chebNeighbor_symm {cols rows x y a b : Nat} (hx : x < cols) (hy : y < rows)
    (h : ChebNeighbor cols rows x y a b) : ChebNeighbor cols rows a b x y := by
  unfold ChebNeighbor at h ⊢
  obtain ⟨h1, h2, hne, h3, h4, h5, h6⟩ := h
  refine ⟨hx, hy, ?_, by omega, by omega, by omega, by omega⟩
  intro hc
  injection hc with hc1 hc2
  exact hne (by rw [hc1, hc2])

end NeighborLemmas

section GenerationLemmas

theorem countP_eq_succ_of_flip {P Q : Pos → Bool} :
    ∀ {l : List Pos} {q : Pos}, l.Nodup → q ∈ l → P q = false → Q q = true →
      (∀ a ∈ l, a ≠ q → Q a = P a) →
      l.countP Q = l.countP P + 1 := by
  intro l
  induction l with
  | nil => intro q _ hq; cases hq
  | cons a t ih =>
    intro q hnd hq hP hQ hsame
    rw [List.countP_cons, List.countP_cons]
    rcases List.mem_cons.mp hq with heq | hqt
    · subst heq
      rw [hP, hQ]
      have hqt : q ∉ t := (List.nodup_cons.mp hnd).1
      have hrest : t.countP Q = t.countP P := by
        apply List.countP_congr
        intro b hb
        rw [hsame b (List.mem_cons_of_mem _ hb) (fun hc => hqt (hc ▸ hb))]
      simp only [Bool.false_eq_true, if_true, if_false]
      omega
    · have haq : a ≠ q := by
        intro hc
        exact (List.nodup_cons.mp hnd).1 (hc ▸ hqt)
      rw [hsame a (List.mem_cons_self _ _) haq]
      have := ih (List.nodup_cons.mp hnd).2 hqt hP hQ
        (fun b hb hbq => hsame b (List.mem_cons_of_mem _ hb) hbq)
      omega

theorem bumpNeighbors_spec :
    ∀ (l : List Pos) (w : Winefield) {w2 : Winefield}, l.Nodup →
      bumpNeighbors w l = some w2 →
      (∀ p : Pos, p ∉ l → valueAt w2 p.1 p.2 = valueAt w p.1 p.2) ∧
      (∀ p ∈ l,
        (valueAt w p.1 p.2 = some (-1) → valueAt w2 p.1 p.2 = some (-1)) ∧
        (∀ v : Int, valueAt w p.1 p.2 = some v → v ≠ -1 →
          valueAt w2 p.1 p.2 = some (v + 1))) ∧
      (∀ rows cols, WellFormed w rows cols → WellFormed w2 rows cols) := by
  intro l
  induction l with
  | nil =>
    intro w w2 _ h
    injection h with h
    subst h
    exact ⟨fun _ _ => rfl, fun p hp => absurd hp (List.not_mem_nil p), fun _ _ hwf => hwf⟩
  | cons a t ih =>
    intro w w2 hnd h
    rcases a with ⟨xr, yr⟩
    rw [bumpNeighbors] at h
    rcases hv : valueAt w xr yr with _ | val
    · rw [hv] at h; cases h
    · rw [hv] at h
      simp only [Option.some_bind] at h
      have hat : (xr, yr) ∉ t := (List.nodup_cons.mp hnd).1
      have hndt : t.Nodup := (List.nodup_cons.mp hnd).2
      by_cases hval : val ≠ -1
      · rw [if_pos hval] at h
        have hspec := ih (setCell w xr yr (val + 1)) hndt h
        have hsame : ∀ p : Pos, p ≠ (xr, yr) →
            valueAt (setCell w xr yr (val + 1)) p.1 p.2 = valueAt w p.1 p.2 := by
          intro p hp
          exact valueAt_setCell_other hp _
        refine ⟨?_, ?_, ?_⟩
        · intro p hp
          have hpt : p ∉ t := fun hc => hp (List.mem_cons_of_mem _ hc)
          have hpa : p ≠ (xr, yr) := fun hc => hp (hc ▸ List.mem_cons_self _ _)
          rw [hspec.1 p hpt, hsame p hpa]
        · intro p hp
          rcases List.mem_cons.mp hp with rfl | hpt
          · constructor
            · intro hcontra
              rw [hv] at hcontra
              injection hcontra with hcontra
              exact absurd hcontra hval
            · intro v hv2 _
              rw [hv] at hv2
              injection hv2 with hv2
              subst hv2
              have h1 : valueAt (setCell w xr yr (val + 1)) xr yr = some (val + 1) :=
                valueAt_setCell_same hv _
              rw [hspec.1 (xr, yr) hat]
              exact h1
          · have hpa : p ≠ (xr, yr) := fun hc => hat (hc ▸ hpt)
            have := hspec.2.1 p hpt
            constructor
            · intro hm
              exact (this.1 (by rw [hsame p hpa]; exact hm))
            · intro v hv2 hvne
              exact this.2 v (by rw [hsame p hpa]; exact hv2) hvne
        · intro rows cols hwf
          exact hspec.2.2 rows cols (wellFormed_setCell hwf _ _ _)
      · rw [if_neg hval] at h
        rw [not_not] at hval
        subst hval
        have hspec := ih w hndt h
        refine ⟨?_, ?_, hspec.2.2⟩
        · intro p hp
          exact hspec.1 p (fun hc => hp (List.mem_cons_of_mem _ hc))
        · intro p hp
          rcases List.mem_cons.mp hp with rfl | hpt
          · constructor
            · intro _
              rw [hspec.1 (xr, yr) hat]
              exact hv
            · intro v hv2 hvne
              rw [hv] at hv2
              injection hv2 with hv2
              exact absurd hv2.symm hvne
          · exact hspec.2.1 p hpt

theorem zeroBoard_wf (rows cols : Nat) : WellFormed (zeroBoard rows cols) rows cols := by
  refine ⟨List.length_replicate _ _, ?_⟩
  intro row hrow
  rw [List.eq_of_mem_replicate hrow]
  exact List.length_replicate _ _

theorem zeroBoard_value {rows cols x y : Nat} {v : Int}
    (h : valueAt (zeroBoard rows cols) x y = some v) : v = 0 := by
  unfold valueAt zeroBoard at h
  rcases hy : (List.replicate rows (List.replicate cols (0 : Int)))[y]? with _ | row
  · rw [hy] at h; cases h
  · rw [hy] at h
    simp only [Option.some_bind] at h
    have hrow : row = List.replicate cols (0 : Int) := by
      have : row ∈ List.replicate rows (List.replicate cols (0 : Int)) := by
        rcases List.getElem?_eq_some.mp hy with ⟨hlt, hget⟩
        exact hget ▸ List.getElem_mem hlt
      exact List.eq_of_mem_replicate this
    subst hrow
    rcases hx : (List.replicate cols (0 : Int))[x]? with _ | u
    · rw [hx] at h; cases h
    · rw [hx] at h
      injection h with h
      subst h
      rcases List.getElem?_eq_some.mp hx with ⟨hlt, hget⟩
      rw [List.getElem_replicate] at hget
      exact hget.symm

theorem zeroBoard_value_total {rows cols x y : Nat} (hx : x < cols) (hy : y < rows) :
    valueAt (zeroBoard rows cols) x y = some 0 := by
  rcases valueAt_total (zeroBoard_wf rows cols) hx hy with ⟨v, hv⟩
  rw [hv, zeroBoard_value hv]

theorem mineNeighborCount_eq {w : Winefield} {cols rows x y : Nat} {l : List Pos}
    (hl : getNeighbors cols rows x y = some l) :
    mineNeighborCount w cols rows x y
      = l.countP (fun p => decide (valueAt w p.1 p.2 = some (-1))) := by
  unfold mineNeighborCount
  rw [hl]

theorem zeroBoard_clue (rows cols : Nat) :
    ∀ x y, x < cols → y < rows → ∀ v, valueAt (zeroBoard rows cols) x y = some v →
      v ≠ -1 → v = (mineNeighborCount (zeroBoard rows cols) cols rows x y : Int) := by
  intro x y hx hy v hv _
  rcases getNeighbors_eq hx hy with ⟨l, hl, hnd, hchar⟩
  rw [mineNeighborCount_eq hl]
  have hcount : l.countP (fun p => decide (valueAt (zeroBoard rows cols) p.1 p.2 = some (-1))) = 0 := by
    rw [List.countP_eq_zero]
    intro p hp
    have hb := (hchar p).mp hp
    rw [zeroBoard_value_total hb.1 hb.2.1]
    decide
  rw [hcount, zeroBoard_value hv]
  rfl

theorem zeroBoard_mineCells (rows cols : Nat) :
    (mineCells (zeroBoard rows cols) rows cols).length = 0 := by
  unfold mineCells
  rw [← List.countP_eq_length_filter, List.countP_eq_zero]
  intro p hp
  have hb := mem_cellList.mp hp
  rw [zeroBoard_value_total hb.1 hb.2]
  decide

end GenerationLemmas

section PlacementLemmas

theorem placeMine_step {w : Winefield} {rows cols x y : Nat} {v0 : Int} {nbrs : List Pos}
    {w2 : Winefield}
    (hwf : WellFormed w rows cols) (hclue : ClueInvariant w rows cols)
    (hv : valueAt w x y = some v0) (hv0 : v0 ≠ -1)
    (hn : getNeighbors cols rows x y = some nbrs)
    (hb : bumpNeighbors (setCell w x y (-1)) nbrs = some w2) :
    WellFormed w2 rows cols ∧ ClueInvariant w2 rows cols ∧
    (∀ p : Pos, valueAt w2 p.1 p.2 = some (-1) ↔
      (valueAt w p.1 p.2 = some (-1) ∨ p = (x, y))) ∧
    (mineCells w2 rows cols).length = (mineCells w rows cols).length + 1 := by
  obtain ⟨hx, hy⟩ := bounds_of_valueAt hwf hv
  obtain ⟨l2, hl2, hnd2, hchar2⟩ := getNeighbors_eq hx hy
  rw [hn] at hl2
  injection hl2 with hl2
  subst hl2
  have hxy_notin : (x, y) ∉ nbrs := by
    intro hc
    exact ((hchar2 (x, y)).mp hc).2.2.1 rfl
  have hw1 : valueAt (setCell w x y (-1)) x y = some (-1) := valueAt_setCell_same hv _
  have hw1o : ∀ p : Pos, p ≠ (x, y) →
      valueAt (setCell w x y (-1)) p.1 p.2 = valueAt w p.1 p.2 :=
    fun p hp => valueAt_setCell_other hp _
  obtain ⟨hout, hin, hshape⟩ := bumpNeighbors_spec nbrs _ hnd2 hb
  have hwf2 : WellFormed w2 rows cols :=
    hshape rows cols (wellFormed_setCell hwf _ _ _)
  have hval_xy : valueAt w2 x y = some (-1) := by
    have := hout (x, y) hxy_notin
    rw [this]
    exact hw1
  have hval_nbr_mine : ∀ p ∈ nbrs, valueAt w p.1 p.2 = some (-1) →
      valueAt w2 p.1 p.2 = some (-1) := by
    intro p hp hm
    have hpne : p ≠ (x, y) := fun hc => hxy_notin (hc ▸ hp)
    exact (hin p hp).1 (by rw [hw1o p hpne]; exact hm)
  have hval_nbr_clue : ∀ p ∈ nbrs, ∀ v : Int, valueAt w p.1 p.2 = some v → v ≠ -1 →
      valueAt w2 p.1 p.2 = some (v + 1) := by
    intro p hp v hval hne
    have hpne : p ≠ (x, y) := fun hc => hxy_notin (hc ▸ hp)
    exact (hin p hp).2 v (by rw [hw1o p hpne]; exact hval) hne
  have hval_other : ∀ p : Pos, p ≠ (x, y) → p ∉ nbrs →
      valueAt w2 p.1 p.2 = valueAt w p.1 p.2 := by
    intro p hpxy hpn
    rw [hout p hpn, hw1o p hpxy]
  have hnonneg : ∀ a b, a < cols → b < rows → ∀ v : Int, valueAt w a b = some v →
      v ≠ -1 → 0 ≤ v := by
    intro a b ha hb v hval hne
    rw [hclue a b ha hb v hval hne]
    exact Int.natCast_nonneg _
  have hmineiff : ∀ p : Pos, valueAt w2 p.1 p.2 = some (-1) ↔
      (valueAt w p.1 p.2 = some (-1) ∨ p = (x, y)) := by
    intro p
    by_cases hpxy : p = (x, y)
    · subst hpxy
      exact ⟨fun _ => Or.inr rfl, fun _ => hval_xy⟩
    · by_cases hpn : p ∈ nbrs
      · have hcheb := (hchar2 p).mp hpn
        obtain ⟨v, hval⟩ := valueAt_total hwf hcheb.1 hcheb.2.1
        by_cases hvm : v = -1
        · subst hvm
          rw [hval_nbr_mine p hpn hval, hval]
          exact ⟨fun _ => Or.inl rfl, fun _ => rfl⟩
        · have h2 := hval_nbr_clue p hpn v hval hvm
          have hvpos : 0 ≤ v := hnonneg p.1 p.2 hcheb.1 hcheb.2.1 v hval hvm
          rw [h2, hval]
          constructor
          · intro hc
            injection hc with hc
            omega
          · rintro (hc | hc)
            · injection hc with hc
              omega
            · exact absurd hc hpxy
      · rw [hval_other p hpxy hpn]
        exact ⟨Or.inl, fun h => h.elim id (fun hc => absurd hc hpxy)⟩
  have hPxy : (fun p : Pos => decide (valueAt w p.1 p.2 = some (-1))) (x, y) = false := by
    simp only [decide_eq_false_iff_not]
    intro hc
    rw [hv] at hc
    injection hc with hc
    exact hv0 hc
  have hQxy : (fun p : Pos => decide (valueAt w2 p.1 p.2 = some (-1))) (x, y) = true := by
    simp only [decide_eq_true_eq]
    exact hval_xy
  refine ⟨hwf2, ?_, hmineiff, ?_⟩
  · intro a b ha hb u hu hune
    by_cases habxy : ((a, b) : Pos) = (x, y)
    · injection habxy with h1 h2
      subst h1
      subst h2
      rw [hval_xy] at hu
      injection hu with hu
      exact absurd hu.symm hune
    · obtain ⟨vab, hvab⟩ := valueAt_total hwf ha hb
      obtain ⟨lab, hlab, hndab, hcharab⟩ := getNeighbors_eq ha hb
      rw [mineNeighborCount_eq hlab]
      by_cases habn : ((a, b) : Pos) ∈ nbrs
      · by_cases hvabm : vab = -1
        · subst hvabm
          have := hval_nbr_mine (a, b) habn hvab
          rw [this] at hu
          injection hu with hu
          exact absurd hu.symm hune
        · have h2 := hval_nbr_clue (a, b) habn vab hvab hvabm
          rw [h2] at hu
          injection hu with hu
          subst hu
          have hvab_count := hclue a b ha hb vab hvab hvabm
          have hxy_in_lab : ((x, y) : Pos) ∈ lab := by
            rw [hcharab]
            exact chebNeighbor_symm hx hy ((hchar2 (a, b)).mp habn)
          have hflip : lab.countP (fun p => decide (valueAt w2 p.1 p.2 = some (-1)))
              = lab.countP (fun p => decide (valueAt w p.1 p.2 = some (-1))) + 1 := by
            apply countP_eq_succ_of_flip hndab hxy_in_lab hPxy hQxy
            intro r hr hrxy
            simp only [decide_eq_decide]
            rw [hmineiff r]
            constructor
            · rintro (hm | hm)
              · exact hm
              · exact absurd hm hrxy
            · exact Or.inl
          rw [hflip, mineNeighborCount_eq hlab] at *
          rw [hvab_count]
          push_cast
          ring
      · have hunch := hval_other (a, b) habxy habn
        rw [hunch] at hu
        have hvab_count := hclue a b ha hb u hu hune
        have hxy_notin_lab : ((x, y) : Pos) ∉ lab := by
          intro hc
          have := chebNeighbor_symm ha hb ((hcharab (x, y)).mp hc)
          exact habn ((hchar2 (a, b)).mpr this)
        have hsame : lab.countP (fun p => decide (valueAt w2 p.1 p.2 = some (-1)))
            = lab.countP (fun p => decide (valueAt w p.1 p.2 = some (-1))) := by
          apply List.countP_congr
          intro r hr
          simp only [decide_eq_true_eq]
          rw [hmineiff r]
          constructor
          · rintro (hm | hm)
            · exact hm
            · exact absurd (hm ▸ hr) hxy_notin_lab
          · exact Or.inl
        rw [hsame, mineNeighborCount_eq hlab] at *
        exact hvab_count
  · unfold mineCells
    rw [← List.countP_eq_length_filter, ← List.countP_eq_length_filter]
    apply countP_eq_succ_of_flip (cellList_nodup rows cols) ?_ hPxy hQxy
    · intro r hr hrxy
      simp only [decide_eq_decide]
      rw [hmineiff r]
      constructor
      · rintro (hm | hm)
        · exact hm
        · exact absurd hm hrxy
      · exact Or.inl
    · rw [mem_cellList]
      exact ⟨hx, hy⟩

end PlacementLemmas

section FillLemmas

theorem fillWines_stop {rows cols wines filled : Nat} {w : Winefield} {props : List Pos}
    (h : wines ≤ filled) : fillWines rows cols wines filled w props = some w := by
  rw [fillWines.eq_def]
  simp only [if_pos h]

theorem fillWines_nil {rows cols wines filled : Nat} {w : Winefield}
    (h : ¬ wines ≤ filled) : fillWines rows cols wines filled w [] = none := by
  rw [fillWines.eq_def]
  simp only [if_neg h]

theorem fillWines_cons {rows cols wines filled : Nat} {w : Winefield} {rx ry : Nat}
    {rest : List Pos} (h : ¬ wines ≤ filled) :
    fillWines rows cols wines filled w ((rx, ry) :: rest) =
      match valueAt w (rx % cols) (ry % rows) with
      | none => none
      | some v =>
        if v ≠ -1 then
          match getNeighbors cols rows (rx % cols) (ry % rows) with
          | none => none
          | some nbrs =>
            match bumpNeighbors (setCell w (rx % cols) (ry % rows) (-1)) nbrs with
            | none => none
            | some w2 => fillWines rows cols wines (filled + 1) w2 rest
        else fillWines rows cols wines filled w rest := by
  rw [fillWines.eq_def]
  simp only [if_neg h]

theorem fillWines_spec {rows cols wines : Nat} :
    ∀ (props : List Pos) (filled : Nat) (w : Winefield) {wfin : Winefield},
      fillWines rows cols wines filled w props = some wfin →
      WellFormed w rows cols → ClueInvariant w rows cols →
      (mineCells w rows cols).length = filled → filled ≤ wines →
      WellFormed wfin rows cols ∧ ClueInvariant wfin rows cols ∧
      (mineCells wfin rows cols).length = wines := by
  intro props
  induction props with
  | nil =>
    intro filled w wfin h hwf hclue hcount hle
    by_cases hwle : wines ≤ filled
    · rw [fillWines_stop hwle] at h
      injection h with h
      subst h
      exact ⟨hwf, hclue, by omega⟩
    · rw [fillWines_nil hwle] at h
      cases h
  | cons pr rest ih =>
    intro filled w wfin h hwf hclue hcount hle
    rcases pr with ⟨rx, ry⟩
    by_cases hwle : wines ≤ filled
    · rw [fillWines_stop hwle] at h
      injection h with h
      subst h
      exact ⟨hwf, hclue, by omega⟩
    · rw [fillWines_cons hwle] at h
      rcases hv : valueAt w (rx % cols) (ry % rows) with _ | v
      · rw [hv] at h; cases h
      · rw [hv] at h
        simp only [Option.some_bind] at h
        by_cases hvm : v ≠ -1
        · rw [if_pos hvm] at h
          rcases hn : getNeighbors cols rows (rx % cols) (ry % rows) with _ | nbrs
          · rw [hn] at h; cases h
          · rw [hn] at h
            simp only [Option.some_bind] at h
            rcases hbump : bumpNeighbors (setCell w (rx % cols) (ry % rows) (-1)) nbrs
              with _ | w2
            · rw [hbump] at h; cases h
            · rw [hbump] at h
              simp only [Option.some_bind] at h
              have hstep := placeMine_step hwf hclue hv hvm hn hbump
              exact ih (filled + 1) w2 h hstep.1 hstep.2.1
                (by rw [hstep.2.2.2, hcount]) (by omega)
        · rw [if_neg hvm] at h
          exact ih filled w h hwf hclue hcount hle

end FillLemmas

/-- C5: for positive dimensions and a clamped wine count, every board that
board generation produces is a well-formed grid with exactly `wines` distinct
wine cells; every in-bounds non-wine cell stores exactly the number of its
neighbors (in bounds, Chebyshev distance one, excluding itself) that hold a
wine; and the fresh game starts with nothing revealed and nothing flagged. -/
theorem c5_generate {rows cols wines : Nat} {props : List Pos} {s : GameState}
    (hrows : 1 ≤ rows) (hcols : 1 ≤ cols) (hwines : 1 ≤ wines)
    (hbound : wines ≤ rows * cols)
    (h : generateGame rows cols wines props = some s) :
    WellFormed s.winefield rows cols
  ∧ (mineCells s.winefield rows cols).Nodup
  ∧ (mineCells s.winefield rows cols).length = wines
  ∧ (∀ x y, x < cols → y < rows → ∀ v : Int, valueAt s.winefield x y = some v →
      v ≠ -1 → v = (mineNeighborCount s.winefield cols rows x y : Int))
  ∧ (∀ x y, x < cols → y < rows →
      ∃ l, getNeighbors cols rows x y = some l ∧ l.Nodup ∧
        ∀ p : Pos, p ∈ l ↔ ChebNeighbor cols rows x y p.1 p.2)
  ∧ s.revealed = [] ∧ s.flagged = [] := by
  unfold generateGame at h
  rcases hfill : fillWines rows cols wines 0 (zeroBoard rows cols) props with _ | wfin
  · rw [hfill] at h; cases h
  · rw [hfill] at h
    simp only [Option.map_some'] at h
    have hspec := fillWines_spec props 0 (zeroBoard rows cols) hfill
      (zeroBoard_wf rows cols) (zeroBoard_clue rows cols)
      (zeroBoard_mineCells rows cols) (Nat.zero_le wines)
    injection h with h
    subst h
    refine ⟨hspec.1, ?_, hspec.2.2, hspec.2.1, ?_, rfl, rfl⟩
    · exact List.Nodup.filter _ (cellList_nodup rows cols)
    · intro x y hx hy
      exact getNeighbors_eq hx hy

/-- Witness for C5: the generated 3 by 3 board with one wine at `(0, 0)`. -/
theorem c5_generate_witness :
    (1 ≤ 3 ∧ 1 ≤ 3 ∧ 1 ≤ 1 ∧ 1 ≤ 3 * 3
      ∧ generateGame 3 3 1 [(0, 0)]
          = some ⟨3, 3, 1, [[-1, 1, 0], [1, 1, 0], [0, 0, 0]], [], [], Phase.playing⟩)
  ∧ (WellFormed [[-1, 1, 0], [1, 1, 0], [0, 0, 0]] 3 3
      ∧ (mineCells [[-1, 1, 0], [1, 1, 0], [0, 0, 0]] 3 3).Nodup
      ∧ (mineCells [[-1, 1, 0], [1, 1, 0], [0, 0, 0]] 3 3).length = 1
      ∧ (∀ x y, x < 3 → y < 3 → ∀ v : Int,
          valueAt [[-1, 1, 0], [1, 1, 0], [0, 0, 0]] x y = some v → v ≠ -1 →
          v = (mineNeighborCount [[-1, 1, 0], [1, 1, 0], [0, 0, 0]] 3 3 x y : Int))
      ∧ (∀ x y, x < 3 → y < 3 →
          ∃ l, getNeighbors 3 3 x y = some l ∧ l.Nodup ∧
            ∀ p : Pos, p ∈ l ↔ ChebNeighbor 3 3 x y p.1 p.2)
      ∧ ([] : List Pos) = [] ∧ ([] : List Pos) = []) :=
  ⟨⟨by decide, by decide, by decide, by decide, by decide⟩,
    @c5_generate 3 3 1 [(0, 0)]
      ⟨3, 3, 1, [[-1, 1, 0], [1, 1, 0], [0, 0, 0]], [], [], Phase.playing⟩
      (by decide) (by decide) (by decide) (by decide) (by decide)⟩

section FlagSumLemmas

/-- The sum of the stored values over a list of positions (with an irrelevant
default, used only when the fold has already succeeded). -/
def sumVals (w : Winefield) (l : List Pos) : Int :=
  (l.map (fun p => (valueAt w p.1 p.2).getD 0)).sum

theorem flagTotal_aux {w : Winefield} :
    ∀ (l : List Pos) (t0 t : Int),
      l.foldlM (fun t p => (valueAt w p.1 p.2).map (fun v => t + v)) t0 = some t →
      t = t0 + sumVals w l ∧ ∀ p ∈ l, (valueAt w p.1 p.2).isSome := by
  intro l
  induction l with
  | nil =>
    intro t0 t h
    injection h with h
    subst h
    refine ⟨by simp [sumVals], fun p hp => absurd hp (List.not_mem_nil p)⟩
  | cons a rest ih =>
    intro t0 t h
    rw [List.foldlM_cons] at h
    rcases hv : valueAt w a.1 a.2 with _ | v
    · rw [hv] at h; cases h
    · rw [hv] at h
      simp only [Option.map_some', Option.bind_eq_bind, Option.some_bind] at h
      have hrest := ih (t0 + v) t h
      constructor
      · rw [hrest.1]
        unfold sumVals
        rw [List.map_cons, List.sum_cons, hv]
        simp only [Option.getD_some]
        ring
      · intro p hp
        rcases List.mem_cons.mp hp with rfl | hp
        · rw [hv]; rfl
        · exact hrest.2 p hp

theorem flagTotal_eq_sumVals {w : Winefield} {l : List Pos} {t : Int}
    (h : flagTotal w l = some t) :
    t = sumVals w l ∧ ∀ p ∈ l, (valueAt w p.1 p.2).isSome := by
  have := flagTotal_aux l 0 t h
  refine ⟨?_, this.2⟩
  rw [this.1]
  ring

theorem sumVals_spec {w : Winefield} {rows cols : Nat}
    (hvals : ∀ x y, x < cols → y < rows → ∀ v : Int,
      valueAt w x y = some v → v ≠ -1 → 0 ≤ v) :
    ∀ (l : List Pos), (∀ p ∈ l, p.1 < cols ∧ p.2 < rows) →
      (∀ p ∈ l, (valueAt w p.1 p.2).isSome) →
      (-(l.countP (fun p => decide (valueAt w p.1 p.2 = some (-1))) : Int) ≤ sumVals w l)
      ∧ (sumVals w l
            = -(l.countP (fun p => decide (valueAt w p.1 p.2 = some (-1))) : Int)
          ↔ ∀ p ∈ l, valueAt w p.1 p.2 = some (-1) ∨ valueAt w p.1 p.2 = some 0) := by
  intro l
  induction l with
  | nil =>
    intro _ _
    constructor
    · simp [sumVals]
    · constructor
      · intro _ p hp
        exact absurd hp (List.not_mem_nil p)
      · intro _
        simp [sumVals]
  | cons a rest ih =>
    intro hb hs
    have hha := hs a (List.mem_cons_self _ _)
    rcases Option.isSome_iff_exists.mp hha with ⟨v, hv⟩
    have hrest := ih (fun p hp => hb p (List.mem_cons_of_mem _ hp))
      (fun p hp => hs p (List.mem_cons_of_mem _ hp))
    have hsum : sumVals w (a :: rest) = v + sumVals w rest := by
      unfold sumVals
      rw [List.map_cons, List.sum_cons, hv]
      rfl
    rw [List.countP_cons, hsum]
    by_cases hvm : v = -1
    · subst hvm
      have hdec : decide (valueAt w a.1 a.2 = some (-1)) = true := by
        simp only [decide_eq_true_eq]
        exact hv
      rw [hdec]
      simp only [if_true]
      constructor
      · push_cast
        have := hrest.1
        omega
      · constructor
        · intro heq p hp
          rcases List.mem_cons.mp hp with rfl | hp
          · exact Or.inl hv
          · refine (hrest.2.mp ?_) p hp
            push_cast at heq ⊢
            omega
        · intro hall
          have : sumVals w rest
              = -(rest.countP (fun p => decide (valueAt w p.1 p.2 = some (-1))) : Int) :=
            hrest.2.mpr (fun p hp => hall p (List.mem_cons_of_mem _ hp))
          push_cast
          omega
    · have hnn : 0 ≤ v := hvals a.1 a.2 (hb a (List.mem_cons_self _ _)).1
        (hb a (List.mem_cons_self _ _)).2 v hv hvm
      have hdec : decide (valueAt w a.1 a.2 = some (-1)) = false := by
        simp only [decide_eq_false_iff_not]
        intro hc
        rw [hv] at hc
        injection hc with hc
        exact hvm hc
      rw [hdec]
      simp only [Bool.false_eq_true, if_false]
      constructor
      · have := hrest.1
        omega
      · constructor
        · intro heq p hp
          have hv0 : v = 0 := by
            have := hrest.1
            omega
          rcases List.mem_cons.mp hp with rfl | hp
          · exact Or.inr (hv0 ▸ hv)
          · refine (hrest.2.mp ?_) p hp
            omega
        · intro hall
          have hhead := hall a (List.mem_cons_self _ _)
          have hv0 : v = 0 := by
            rcases hhead with hm | hm
            · rw [hv] at hm
              exact absurd (Option.some.inj hm) hvm
            · rw [hv] at hm
              exact Option.some.inj hm
          have : sumVals w rest
              = -(rest.countP (fun p => decide (valueAt w p.1 p.2 = some (-1))) : Int) :=
            hrest.2.mpr (fun p hp => hall p (List.mem_cons_of_mem _ hp))
          omega

theorem mineCount_le {w : Winefield} {rows cols : Nat} {l : List Pos}
    (hnd : l.Nodup) (hb : ∀ p ∈ l, p.1 < cols ∧ p.2 < rows) :
    l.countP (fun p => decide (valueAt w p.1 p.2 = some (-1)))
        ≤ (mineCells w rows cols).length
    ∧ (l.countP (fun p => decide (valueAt w p.1 p.2 = some (-1)))
          = (mineCells w rows cols).length
        ↔ ∀ p ∈ mineCells w rows cols, p ∈ l) := by
  have hf1 : (l.filter (fun p => decide (valueAt w p.1 p.2 = some (-1)))).Nodup :=
    List.Nodup.filter _ hnd
  have hsub : (l.filter (fun p => decide (valueAt w p.1 p.2 = some (-1))))
      ⊆ mineCells w rows cols := by
    intro p hp
    rw [List.mem_filter] at hp
    unfold mineCells
    rw [List.mem_filter]
    exact ⟨mem_cellList.mpr (hb p hp.1), hp.2⟩
  have hsp := List.Nodup.subperm hf1 hsub
  have hlen := List.Subperm.length_le hsp
  rw [List.countP_eq_length_filter]
  refine ⟨hlen, ?_, ?_⟩
  · intro heq p hpm
    have hperm := List.Subperm.perm_of_length_le hsp (by omega)
    have hmem : p ∈ l.filter (fun p => decide (valueAt w p.1 p.2 = some (-1))) :=
      (List.Perm.mem_iff hperm).mpr hpm
    exact (List.mem_filter.mp hmem).1
  · intro hmines
    have hsub2 : mineCells w rows cols
        ⊆ l.filter (fun p => decide (valueAt w p.1 p.2 = some (-1))) := by
      intro p hpm
      have hpm2 := hpm
      unfold mineCells at hpm2
      rw [List.mem_filter] at hpm2
      rw [List.mem_filter]
      exact ⟨hmines p hpm, hpm2.2⟩
    have hnd_m : (mineCells w rows cols).Nodup :=
      List.Nodup.filter _ (cellList_nodup rows cols)
    have := List.Subperm.length_le (List.Nodup.subperm hnd_m hsub2)
    omega

end FlagSumLemmas

/-- C1 amended: on a board whose in-bounds non-wine values are genuine
neighbor counts and which carries exactly `wines` wine cells, the
flagged-value sum equals `-1 * wines` exactly when all wines are flagged and
every flagged non-wine cell has value `0`; `check_win` transitions to `Won`
exactly when the sum reaches `-1 * wines`. (A flag sitting on a blank cell
contributes `0`, so the win can fire with a non-wine cell flagged — the
original "flagged set = mine set" equivalence fails only in that way.) -/
theorem c1_amended {s : GameState} {t : Int}
    (hwf : WellFormed s.winefield s.rows s.cols)
    (hclue : ClueInvariant s.winefield s.rows s.cols)
    (hM : (mineCells s.winefield s.rows s.cols).length = s.wines)
    (hnd : s.flagged.Nodup)
    (hbounds : ∀ p ∈ s.flagged, p.1 < s.cols ∧ p.2 < s.rows)
    (ht : flagTotal s.winefield s.flagged = some t) :
    (t = -1 * (s.wines : Int) ↔
      ((∀ p ∈ mineCells s.winefield s.rows s.cols, p ∈ s.flagged)
        ∧ ∀ p ∈ s.flagged, valueAt s.winefield p.1 p.2 = some (-1)
            ∨ valueAt s.winefield p.1 p.2 = some 0))
  ∧ (t = -1 * (s.wines : Int) →
      ∃ s', checkWin s = some s' ∧ s'.phase = Phase.won)
  ∧ (t ≠ -1 * (s.wines : Int) → checkWin s = some s) := by
  have hvals : ∀ x y, x < s.cols → y < s.rows → ∀ v : Int,
      valueAt s.winefield x y = some v → v ≠ -1 → 0 ≤ v := by
    intro x y hx hy v hv hvne
    rw [hclue x y hx hy v hv hvne]
    exact Int.natCast_nonneg _
  obtain ⟨hts, hsome⟩ := flagTotal_eq_sumVals ht
  obtain ⟨hge, hiff⟩ := sumVals_spec hvals s.flagged hbounds hsome
  obtain ⟨hle, hcntiff⟩ := @mineCount_le s.winefield s.rows s.cols s.flagged hnd hbounds
  refine ⟨?_, ?_, ?_⟩
  · constructor
    · intro heq
      have hcnt : s.flagged.countP
          (fun p => decide (valueAt s.winefield p.1 p.2 = some (-1)))
          = (mineCells s.winefield s.rows s.cols).length := by
        omega
      refine ⟨hcntiff.mp hcnt, hiff.mp ?_⟩
      omega
    · rintro ⟨hmines, hzero⟩
      have hcnt := hcntiff.mpr hmines
      have hsv := hiff.mpr hzero
      omega
  · intro heq
    unfold checkWin
    rw [ht]
    simp only [Option.some_bind]
    rw [if_pos heq]
    unfold setState
    obtain ⟨s', hs'⟩ := revealAllCells_total { s with phase := Phase.won }
    exact ⟨s', hs', (revealAllCells_eq hs').2.2.2.2.2.1⟩
  · intro hne
    unfold checkWin
    rw [ht]
    simp only [Option.some_bind]
    rw [if_neg hne]

/-- Witness for the amended C1: the 3 by 3 one-wine board with only the wine
flagged sums to `-1` and wins. -/
theorem c1_amended_witness :
    (WellFormed [[-1, 1, 0], [1, 1, 0], [0, 0, 0]] 3 3
      ∧ ClueInvariant [[-1, 1, 0], [1, 1, 0], [0, 0, 0]] 3 3
      ∧ (mineCells [[-1, 1, 0], [1, 1, 0], [0, 0, 0]] 3 3).length = 1
      ∧ ([(0, 0)] : List Pos).Nodup
      ∧ (∀ p ∈ ([(0, 0)] : List Pos), p.1 < 3 ∧ p.2 < 3)
      ∧ flagTotal [[-1, 1, 0], [1, 1, 0], [0, 0, 0]] [(0, 0)] = some (-1))
  ∧ (((-1 : Int) = -1 * ((1 : Nat) : Int) ↔
      ((∀ p ∈ mineCells [[-1, 1, 0], [1, 1, 0], [0, 0, 0]] 3 3,
          p ∈ ([(0, 0)] : List Pos))
        ∧ ∀ p ∈ ([(0, 0)] : List Pos),
            valueAt [[-1, 1, 0], [1, 1, 0], [0, 0, 0]] p.1 p.2 = some (-1)
            ∨ valueAt [[-1, 1, 0], [1, 1, 0], [0, 0, 0]] p.1 p.2 = some 0))
    ∧ ((-1 : Int) = -1 * ((1 : Nat) : Int) →
        ∃ s', checkWin ⟨3, 3, 1, [[-1, 1, 0], [1, 1, 0], [0, 0, 0]], [], [(0, 0)],
            Phase.playing⟩ = some s' ∧ s'.phase = Phase.won)
    ∧ ((-1 : Int) ≠ -1 * ((1 : Nat) : Int) →
        checkWin ⟨3, 3, 1, [[-1, 1, 0], [1, 1, 0], [0, 0, 0]], [], [(0, 0)],
            Phase.playing⟩
          = some ⟨3, 3, 1, [[-1, 1, 0], [1, 1, 0], [0, 0, 0]], [], [(0, 0)],
              Phase.playing⟩)) :=
  have hfill : fillWines 3 3 1 0 (zeroBoard 3 3) [(0, 0)]
      = some [[-1, 1, 0], [1, 1, 0], [0, 0, 0]] := by decide
  have hspec := fillWines_spec [(0, 0)] 0 (zeroBoard 3 3) hfill
    (zeroBoard_wf 3 3) (zeroBoard_clue 3 3) (zeroBoard_mineCells 3 3) (Nat.zero_le 1)
  ⟨⟨hspec.1, hspec.2.1, hspec.2.2, by decide, by decide, by decide⟩,
    @c1_amended ⟨3, 3, 1, [[-1, 1, 0], [1, 1, 0], [0, 0, 0]], [], [(0, 0)], Phase.playing⟩
      (-1) hspec.1 hspec.2.1 hspec.2.2 (by decide) (by decide) (by decide)⟩

section ToggleLemmas

theorem mem_mineCells {w : Winefield} {rows cols : Nat} {p : Pos} :
    p ∈ mineCells w rows cols ↔
      (p.1 < cols ∧ p.2 < rows) ∧ valueAt w p.1 p.2 = some (-1) := by
  unfold mineCells
  rw [List.mem_filter, mem_cellList]
  simp only [decide_eq_true_eq]

theorem flagTotal_total {w : Winefield} :
    ∀ (l : List Pos), (∀ p ∈ l, (valueAt w p.1 p.2).isSome) →
      ∀ t0 : Int, ∃ t, l.foldlM (fun t p => (valueAt w p.1 p.2).map (fun v => t + v)) t0
        = some t := by
  intro l
  induction l with
  | nil => intro _ t0; exact ⟨t0, rfl⟩
  | cons a rest ih =>
    intro hall t0
    rcases Option.isSome_iff_exists.mp (hall a (List.mem_cons_self _ _)) with ⟨v, hv⟩
    rcases ih (fun p hp => hall p (List.mem_cons_of_mem _ hp)) (t0 + v) with ⟨t, ht⟩
    refine ⟨t, ?_⟩
    rw [List.foldlM_cons, hv]
    simp only [Option.map_some', Option.bind_eq_bind, Option.some_bind]
    exact ht

theorem sumVals_all_mines {w : Winefield} :
    ∀ (l : List Pos), (∀ p ∈ l, valueAt w p.1 p.2 = some (-1)) →
      sumVals w l = -(l.length : Int) := by
  intro l
  induction l with
  | nil => intro _; simp [sumVals]
  | cons a rest ih =>
    intro hall
    unfold sumVals
    rw [List.map_cons, List.sum_cons, hall a (List.mem_cons_self _ _)]
    have := ih (fun p hp => hall p (List.mem_cons_of_mem _ hp))
    unfold sumVals at this
    rw [this]
    simp only [Option.getD_some, List.length_cons]
    push_cast
    ring

theorem flagSum_target_mines_subset {w : Winefield} {rows cols M : Nat}
    (hvals : ∀ x y, x < cols → y < rows → ∀ v : Int,
      valueAt w x y = some v → v ≠ -1 → 0 ≤ v)
    (hM : (mineCells w rows cols).length = M)
    {F : List Pos} (hnd : F.Nodup) (hb : ∀ p ∈ F, p.1 < cols ∧ p.2 < rows)
    {t : Int} (ht : flagTotal w F = some t) (heq : t = -1 * (M : Int)) :
    ∀ p ∈ mineCells w rows cols, p ∈ F := by
  obtain ⟨hts, hsome⟩ := flagTotal_eq_sumVals ht
  obtain ⟨hge, hiff⟩ := sumVals_spec hvals F hb hsome
  obtain ⟨hle, hcntiff⟩ := @mineCount_le w rows cols F hnd hb
  apply hcntiff.mp
  omega

/-- One `do_right_click` preserves the playing-or-won invariant: the board and
configuration are untouched, the flag list stays duplicate-free and in
bounds, and the phase is still `Playing` unless a win fired, in which case
every mine is flagged and the whole board is revealed (so the flag set is
frozen from then on). -/
theorem rightClick_preserves_inv {W : Winefield} {R C M : Nat}
    (hvals : ∀ x y, x < C → y < R → ∀ v : Int,
      valueAt W x y = some v → v ≠ -1 → 0 ≤ v)
    (hM : (mineCells W R C).length = M)
    {s s1 : GameState} {x y : Nat}
    (hW : s.winefield = W) (hR : s.rows = R) (hC : s.cols = C) (hMM : s.wines = M)
    (hnd : s.flagged.Nodup) (hb : ∀ p ∈ s.flagged, p.1 < C ∧ p.2 < R)
    (hph : s.phase = Phase.playing ∨
      (s.phase = Phase.won ∧ (∀ p ∈ mineCells W R C, p ∈ s.flagged)
        ∧ ∀ a, a < C → ∀ b, b < R → (a, b) ∈ s.revealed))
    (h : doRightClick s x y = some s1) :
    s1.winefield = W ∧ s1.rows = R ∧ s1.cols = C ∧ s1.wines = M ∧
    s1.flagged.Nodup ∧ (∀ p ∈ s1.flagged, p.1 < C ∧ p.2 < R) ∧
    (s1.phase = Phase.playing ∨
      (s1.phase = Phase.won ∧ (∀ p ∈ mineCells W R C, p ∈ s1.flagged)
        ∧ ∀ a, a < C → ∀ b, b < R → (a, b) ∈ s1.revealed)) := by
  unfold doRightClick at h
  by_cases hrev : (x, y) ∈ s.revealed
  · rw [if_pos hrev] at h
    injection h with h
    subst h
    exact ⟨hW, hR, hC, hMM, hnd, hb, hph⟩
  · rw [if_neg hrev] at h
    by_cases hbnd : y < s.rows ∧ x < s.cols
    · rw [if_pos hbnd] at h
      have hphp : s.phase = Phase.playing := by
        rcases hph with hph | ⟨_, _, hallrev⟩
        · exact hph
        · exact absurd (hallrev x (hC ▸ hbnd.2) y (hR ▸ hbnd.1)) hrev
      by_cases hfl : (x, y) ∈ s.flagged
      · rw [if_pos hfl] at h
        injection h with h
        subst h
        refine ⟨hW, hR, hC, hMM, List.Nodup.erase _ hnd, ?_, Or.inl hphp⟩
        intro p hp
        exact hb p (List.erase_subset _ _ hp)
      · rw [if_neg hfl] at h
        have hndF : (s.flagged ++ [(x, y)]).Nodup := by
          rw [List.nodup_append]
          exact ⟨hnd, List.nodup_singleton _, by
            intro p hp hq
            rw [List.mem_singleton] at hq
            subst hq
            exact hfl hp⟩
        have hbF : ∀ p ∈ s.flagged ++ [(x, y)], p.1 < C ∧ p.2 < R := by
          intro p hp
          rcases List.mem_append.mp hp with hp | hp
          · exact hb p hp
          · rw [List.mem_singleton] at hp
            subst hp
            exact ⟨hC ▸ hbnd.2, hR ▸ hbnd.1⟩
        unfold checkWin at h
        split at h
        · cases h
        · rename_i t htot
          have htotc : flagTotal W (s.flagged ++ [(x, y)]) = some t := by
            rw [← hW]
            exact htot
          by_cases hwin : t = -1 * (({ s with flagged := s.flagged ++ [(x, y)] }
              : GameState).wines : Int)
          · rw [if_pos hwin] at h
            unfold setState at h
            have hre := revealAllCells_eq h
            have hwin2 : t = -1 * (M : Int) := by
              have hwin1 : t = -1 * (s.wines : Int) := hwin
              rw [hwin1, hMM]
            have hmines := flagSum_target_mines_subset hvals hM hndF hbF htotc hwin2
            have hflag1 : s1.flagged = s.flagged ++ [(x, y)] := hre.2.2.2.2.1
            refine ⟨?_, ?_, ?_, ?_, ?_, ?_, Or.inr ⟨?_, ?_, ?_⟩⟩
            · rw [hre.2.2.2.1]
              exact hW
            · rw [hre.1]
              exact hR
            · rw [hre.2.1]
              exact hC
            · rw [hre.2.2.1]
              exact hMM
            · rw [hflag1]
              exact hndF
            · rw [hflag1]
              exact hbF
            · rw [hre.2.2.2.2.2.1]
            · rw [hflag1]
              exact hmines
            · intro a ha b hb2
              refine (hre.2.2.2.2.2.2 (a, b)).mpr (Or.inr ⟨?_, ?_⟩)
              · exact hC ▸ ha
              · exact hR ▸ hb2
          · rw [if_neg hwin] at h
            injection h with h
            subst h
            exact ⟨hW, hR, hC, hMM, hndF, hbF, Or.inl hphp⟩
    · rw [if_neg hbnd] at h
      cases h

/-- The invariant of `rightClick_preserves_inv`, carried along an arbitrary
sequence of right-clicks. -/
theorem toggleFold_inv {W : Winefield} {R C M : Nat}
    (hvals : ∀ x y, x < C → y < R → ∀ v : Int,
      valueAt W x y = some v → v ≠ -1 → 0 ≤ v)
    (hM : (mineCells W R C).length = M) :
    ∀ (l : List Pos) (s : GameState) {sfin : GameState},
      s.winefield = W → s.rows = R → s.cols = C → s.wines = M →
      s.flagged.Nodup → (∀ p ∈ s.flagged, p.1 < C ∧ p.2 < R) →
      (s.phase = Phase.playing ∨
        (s.phase = Phase.won ∧ (∀ p ∈ mineCells W R C, p ∈ s.flagged)
          ∧ ∀ a, a < C → ∀ b, b < R → (a, b) ∈ s.revealed)) →
      l.foldlM (fun t p => doRightClick t p.1 p.2) s = some sfin →
      sfin.winefield = W ∧ sfin.rows = R ∧ sfin.cols = C ∧ sfin.wines = M ∧
      sfin.flagged.Nodup ∧ (∀ p ∈ sfin.flagged, p.1 < C ∧ p.2 < R) ∧
      (sfin.phase = Phase.playing ∨
        (sfin.phase = Phase.won ∧ (∀ p ∈ mineCells W R C, p ∈ sfin.flagged)
          ∧ ∀ a, a < C → ∀ b, b < R → (a, b) ∈ sfin.revealed)) := by
  intro l
  induction l with
  | nil =>
    intro s sfin hW hR hC hMM hnd hb hph h
    injection h with h
    subst h
    exact ⟨hW, hR, hC, hMM, hnd, hb, hph⟩
  | cons a rest ih =>
    intro s sfin hW hR hC hMM hnd hb hph h
    rw [List.foldlM_cons] at h
    rcases hstep : doRightClick s a.1 a.2 with _ | s1
    · rw [hstep] at h
      cases h
    · rw [hstep] at h
      simp only [Option.bind_eq_bind, Option.some_bind] at h
      have h1 := rightClick_preserves_inv hvals hM hW hR hC hMM hnd hb hph hstep
      exact ih s1 h1.1 h1.2.1 h1.2.2.1 h1.2.2.2.1 h1.2.2.2.2.1 h1.2.2.2.2.2.1
        h1.2.2.2.2.2.2 h

end ToggleLemmas

/-- C3 amended: the win condition is re-evaluated only after flag additions
(the removal branch of `do_right_click` never calls `check_win`), so the claim
holds when the toggle that completes the mine set is an addition: if a
right-click adds a flag and afterwards exactly the mine cells are flagged, the
phase becomes `Won`; and a toggle sequence — arbitrary, including ones that
transiently flag and unflag mine cells — that ends with only non-mine cells
flagged never has the phase `Won` at the end (winning requires all mines
flagged at that instant, and the win-reveal freezes the flag set). Only the
first clause of the original claim is weakened, because a sequence whose
final flip is a removal can leave exactly the mines flagged with the phase
still `Playing` (see the counterexample). -/
theorem c3_amended :
    (∀ (s s' : GameState) (x y : Nat),
      (mineCells s.winefield s.rows s.cols).length = s.wines →
      (s.flagged ++ [(x, y)]).Nodup →
      (∀ p ∈ s.flagged ++ [(x, y)], p ∈ mineCells s.winefield s.rows s.cols) →
      (∀ p ∈ mineCells s.winefield s.rows s.cols, p ∈ s.flagged ++ [(x, y)]) →
      (x, y) ∉ s.revealed →
      (x, y) ∉ s.flagged →
      doRightClick s x y = some s' →
      s'.phase = Phase.won)
  ∧ (∀ (l : List Pos) (s : GameState) (sfin : GameState),
      (∀ x y, x < s.cols → y < s.rows → ∀ v : Int,
        valueAt s.winefield x y = some v → v ≠ -1 → 0 ≤ v) →
      (mineCells s.winefield s.rows s.cols).length = s.wines →
      1 ≤ s.wines →
      s.phase = Phase.playing →
      s.flagged.Nodup →
      (∀ p ∈ s.flagged, p.1 < s.cols ∧ p.2 < s.rows) →
      l.foldlM (fun t p => doRightClick t p.1 p.2) s = some sfin →
      (∀ p ∈ sfin.flagged, valueAt s.winefield p.1 p.2 ≠ some (-1)) →
      sfin.phase ≠ Phase.won) := by
  constructor
  · intro s s' x y hM hnd hFsub hMsub hrev hfl h
    have hallm : ∀ p ∈ s.flagged ++ [(x, y)],
        valueAt s.winefield p.1 p.2 = some (-1) :=
      fun p hp => (mem_mineCells.mp (hFsub p hp)).2
    have hbnds : ∀ p ∈ s.flagged ++ [(x, y)], p.1 < s.cols ∧ p.2 < s.rows :=
      fun p hp => (mem_mineCells.mp (hFsub p hp)).1
    have hxyb := hbnds (x, y) (List.mem_append_right _ (List.mem_singleton.mpr rfl))
    have hndm : (mineCells s.winefield s.rows s.cols).Nodup :=
      List.Nodup.filter _ (cellList_nodup _ _)
    have hlen1 := List.Subperm.length_le (List.Nodup.subperm hnd hFsub)
    have hlen2 := List.Subperm.length_le (List.Nodup.subperm hndm hMsub)
    have hlenF : ((s.flagged ++ [(x, y)]).length : Int) = (s.wines : Int) := by
      exact_mod_cast congrArg Nat.cast (by omega :
        (s.flagged ++ [(x, y)]).length = s.wines)
    obtain ⟨t, htot0⟩ := flagTotal_total (s.flagged ++ [(x, y)])
      (fun p hp => by rw [hallm p hp]; rfl) 0
    have htot : flagTotal s.winefield (s.flagged ++ [(x, y)]) = some t := htot0
    have hts := (flagTotal_aux _ 0 t htot0).1
    have hsum := sumVals_all_mines (s.flagged ++ [(x, y)]) hallm
    have htM : t = -1 * (s.wines : Int) := by
      rw [hts, hsum]
      rw [← hlenF]
      ring
    unfold doRightClick at h
    rw [if_neg hrev, if_pos ⟨hxyb.2, hxyb.1⟩, if_neg hfl] at h
    unfold checkWin at h
    split at h
    · cases h
    · rename_i t2 htot2
      have htot2c : flagTotal s.winefield (s.flagged ++ [(x, y)]) = some t2 := htot2
      rw [htot] at htot2c
      have ht2 : t2 = t := (Option.some.inj htot2c).symm
      rw [if_pos (show t2 = -1 * (({ s with flagged := s.flagged ++ [(x, y)] }
          : GameState).wines : Int) from ht2 ▸ htM)] at h
      unfold setState at h
      exact (revealAllCells_eq h).2.2.2.2.2.1
  · intro l s sfin hvals hM hwines hph hnd hb h hnomine
    have hinv := toggleFold_inv hvals hM l s rfl rfl rfl rfl hnd hb (Or.inl hph) h
    rcases hinv.2.2.2.2.2.2 with hplay | ⟨hwon, hmines, _⟩
    · rw [hplay]
      intro hc
      cases hc
    · intro _
      have hne : mineCells s.winefield s.rows s.cols ≠ [] := by
        intro hc
        rw [hc] at hM
        simp only [List.length_nil] at hM
        omega
      obtain ⟨p, hp⟩ := List.exists_mem_of_ne_nil _ hne
      exact hnomine p (hmines p hp) (mem_mineCells.mp hp).2

/-- Witness for the amended C3 on the 3 by 3 one-wine board: adding the flag
on the wine wins; the sequence flag `(1, 1)`, flag the wine `(0, 0)`, unflag
the wine ends with only the non-mine `(1, 1)` flagged and is not won. -/
theorem c3_amended_witness :
    (doRightClick ⟨3, 3, 1, [[-1, 1, 0], [1, 1, 0], [0, 0, 0]], [], [], Phase.playing⟩ 0 0
        = some ⟨3, 3, 1, [[-1, 1, 0], [1, 1, 0], [0, 0, 0]],
            [(0, 0), (1, 0), (2, 0), (0, 1), (1, 1), (2, 1), (0, 2), (1, 2), (2, 2)],
            [(0, 0)], Phase.won⟩
      ∧ (⟨3, 3, 1, [[-1, 1, 0], [1, 1, 0], [0, 0, 0]],
            [(0, 0), (1, 0), (2, 0), (0, 1), (1, 1), (2, 1), (0, 2), (1, 2), (2, 2)],
            [(0, 0)], Phase.won⟩ : GameState).phase = Phase.won)
  ∧ (List.foldlM (fun t p => doRightClick t p.1 p.2)
        ⟨3, 3, 1, [[-1, 1, 0], [1, 1, 0], [0, 0, 0]], [], [], Phase.playing⟩
        [(1, 1), (0, 0), (0, 0)]
        = some ⟨3, 3, 1, [[-1, 1, 0], [1, 1, 0], [0, 0, 0]], [], [(1, 1)], Phase.playing⟩
      ∧ (⟨3, 3, 1, [[-1, 1, 0], [1, 1, 0], [0, 0, 0]], [], [(1, 1)], Phase.playing⟩
          : GameState).phase ≠ Phase.won) :=
  have hfill : fillWines 3 3 1 0 (zeroBoard 3 3) [(0, 0)]
      = some [[-1, 1, 0], [1, 1, 0], [0, 0, 0]] := by decide
  have hspec := fillWines_spec [(0, 0)] 0 (zeroBoard 3 3) hfill
    (zeroBoard_wf 3 3) (zeroBoard_clue 3 3) (zeroBoard_mineCells 3 3) (Nat.zero_le 1)
  have hvals : ∀ x y, x < 3 → y < 3 → ∀ v : Int,
      valueAt [[-1, 1, 0], [1, 1, 0], [0, 0, 0]] x y = some v → v ≠ -1 → 0 ≤ v :=
    fun x y hx hy v hv hvne => by
      rw [hspec.2.1 x y hx hy v hv hvne]
      exact Int.natCast_nonneg _
  ⟨⟨by decide,
    c3_amended.1 ⟨3, 3, 1, [[-1, 1, 0], [1, 1, 0], [0, 0, 0]], [], [], Phase.playing⟩
      ⟨3, 3, 1, [[-1, 1, 0], [1, 1, 0], [0, 0, 0]],
        [(0, 0), (1, 0), (2, 0), (0, 1), (1, 1), (2, 1), (0, 2), (1, 2), (2, 2)],
        [(0, 0)], Phase.won⟩ 0 0
      (by decide) (by decide) (by decide) (by decide) (by decide) (by decide) (by decide)⟩,
  ⟨by decide,
    c3_amended.2 [(1, 1), (0, 0), (0, 0)]
      ⟨3, 3, 1, [[-1, 1, 0], [1, 1, 0], [0, 0, 0]], [], [], Phase.playing⟩
      ⟨3, 3, 1, [[-1, 1, 0], [1, 1, 0], [0, 0, 0]], [], [(1, 1)], Phase.playing⟩
      hvals hspec.2.2 (by decide) (by decide) (by decide) (by decide) (by decide)
      (by decide)⟩⟩

section TerminationLemmas

theorem fillWines_stuck_22 :
    ∀ (rest : List Pos), (∀ p ∈ rest, p = ((0, 0) : Pos)) →
      fillWines 2 2 2 1 [[-1, 1], [1, 1]] rest = none := by
  intro rest
  induction rest with
  | nil => intro _; rfl
  | cons a t ih =>
    intro hall
    have ha := hall a (List.mem_cons_self _ _)
    subst ha
    rw [show fillWines 2 2 2 1 [[-1, 1], [1, 1]] ((0, 0) :: t)
        = fillWines 2 2 2 1 [[-1, 1], [1, 1]] t from rfl]
    exact ih (fun p hp => hall p (List.mem_cons_of_mem _ hp))

/-- C10 counterexample: the termination claim quantifies over every outcome of
the random source; the outcome that keeps proposing the already-mined cell
`(0, 0)` makes the `while filled < wines` loop of `generate_game` run forever
on a 2 by 2 board with two wines — no finite prefix of that outcome completes
board generation. -/
theorem c10_counterexample : GenDiverges 2 2 2 (fun _ => (0, 0)) := by
  intro n
  have hstream : ∀ p ∈ streamTake (fun _ => ((0, 0) : Pos)) n, p = ((0, 0) : Pos) := by
    intro p hp
    unfold streamTake at hp
    rw [List.mem_map] at hp
    rcases hp with ⟨i, _, rfl⟩
    rfl
  unfold generateGame
  have hfill : fillWines 2 2 2 0 (zeroBoard 2 2) (streamTake (fun _ => (0, 0)) n)
      = none := by
    rcases hs : streamTake (fun _ => ((0, 0) : Pos)) n with _ | ⟨a, rest⟩
    · rfl
    · have ha : a = ((0, 0) : Pos) := hstream a (hs ▸ List.mem_cons_self _ _)
      subst ha
      rw [show fillWines 2 2 2 0 (zeroBoard 2 2) ((0, 0) :: rest)
          = fillWines 2 2 2 1 [[-1, 1], [1, 1]] rest from rfl]
      exact fillWines_stuck_22 rest
        (fun p hp => hstream p (hs ▸ List.mem_cons_of_mem _ hp))
  rw [hfill]
  rfl

theorem valueAt_setCell_isSome {w : Winefield} {x y a b : Nat} {u vset : Int}
    (hu : valueAt w a b = some u) (hxy : (valueAt w x y).isSome) :
    (valueAt (setCell w x y vset) a b).isSome := by
  by_cases hab : ((a, b) : Pos) = (x, y)
  · injection hab with h1 h2
    subst h1
    subst h2
    rcases Option.isSome_iff_exists.mp hxy with ⟨v, hv⟩
    rw [valueAt_setCell_same hv vset]
    rfl
  · rw [show valueAt (setCell w x y vset) a b
        = valueAt w a b from valueAt_setCell_other hab vset, hu]
    rfl

theorem bumpNeighbors_total :
    ∀ (l : List Pos) (w : Winefield),
      (∀ p ∈ l, (valueAt w p.1 p.2).isSome) →
      ∃ w2, bumpNeighbors w l = some w2 := by
  intro l
  induction l with
  | nil => intro w _; exact ⟨w, rfl⟩
  | cons a t ih =>
    intro w hall
    rcases a with ⟨xr, yr⟩
    rcases Option.isSome_iff_exists.mp (hall (xr, yr) (List.mem_cons_self _ _))
      with ⟨val, hval⟩
    rw [bumpNeighbors, hval]
    simp only [Option.some_bind]
    by_cases hvm : val ≠ -1
    · rw [if_pos hvm]
      refine ih (setCell w xr yr (val + 1)) ?_
      intro p hp
      rcases Option.isSome_iff_exists.mp (hall p (List.mem_cons_of_mem _ hp))
        with ⟨u, hu⟩
      exact valueAt_setCell_isSome hu (by rw [hval]; rfl)
    · rw [if_neg hvm]
      exact ih w (fun p hp => hall p (List.mem_cons_of_mem _ hp))

theorem fillWines_total {rows cols wines : Nat} :
    ∀ (props : List Pos) (filled : Nat) (w : Winefield),
      WellFormed w rows cols → ClueInvariant w rows cols →
      props.Nodup → (∀ p ∈ props, p.1 < cols ∧ p.2 < rows) →
      (∀ p ∈ props, valueAt w p.1 p.2 ≠ some (-1)) →
      wines ≤ filled + props.length →
      ∃ wfin, fillWines rows cols wines filled w props = some wfin := by
  intro props
  induction props with
  | nil =>
    intro filled w _ _ _ _ _ hlen
    refine ⟨w, fillWines_stop ?_⟩
    simpa using hlen
  | cons a rest ih =>
    intro filled w hwf hclue hnd hb hunmined hlen
    obtain ⟨ax, ay⟩ := a
    by_cases hwle : wines ≤ filled
    · exact ⟨w, fillWines_stop hwle⟩
    · have hax : ax < cols := (hb (ax, ay) (List.mem_cons_self _ _)).1
      have hay : ay < rows := (hb (ax, ay) (List.mem_cons_self _ _)).2
      have hmodx : ax % cols = ax := Nat.mod_eq_of_lt hax
      have hmody : ay % rows = ay := Nat.mod_eq_of_lt hay
      obtain ⟨v, hv⟩ := valueAt_total hwf hax hay
      have hvne : v ≠ -1 := by
        intro hc
        exact hunmined (ax, ay) (List.mem_cons_self _ _) (hc ▸ hv)
      obtain ⟨nbrs, hn, hndn, hcharn⟩ := getNeighbors_eq hax hay
      have hbump_pre : ∀ p ∈ nbrs, (valueAt (setCell w ax ay (-1)) p.1 p.2).isSome := by
        intro p hp
        have hpb := (hcharn p).mp hp
        obtain ⟨u, hu⟩ := valueAt_total hwf hpb.1 hpb.2.1
        exact valueAt_setCell_isSome hu (by rw [hv]; rfl)
      obtain ⟨w2, hbump⟩ := bumpNeighbors_total nbrs _ hbump_pre
      have hstep := placeMine_step hwf hclue hv hvne hn hbump
      have hrest_unmined : ∀ p ∈ rest, valueAt w2 p.1 p.2 ≠ some (-1) := by
        intro p hp hc
        rcases (hstep.2.2.1 p).mp hc with hm | hm
        · exact hunmined p (List.mem_cons_of_mem _ hp) hm
        · have hmem : ((ax, ay) : Pos) ∈ rest := hm ▸ hp
          exact (List.nodup_cons.mp hnd).1 hmem
      obtain ⟨wfin, hfin⟩ := ih (filled + 1) w2 hstep.1 hstep.2.1
        (List.nodup_cons.mp hnd).2
        (fun p hp => hb p (List.mem_cons_of_mem _ hp))
        hrest_unmined
        (by
          rw [List.length_cons] at hlen
          omega)
      refine ⟨wfin, ?_⟩
      rw [fillWines_cons hwle]
      rw [hmodx, hmody, hv]
      simp only [Option.some_bind]
      rw [if_pos hvne, hn]
      simp only [Option.some_bind]
      rw [hbump]
      simp only [Option.some_bind]
      exact hfin

theorem cellList_length (rows cols : Nat) :
    (cellList rows cols).length = rows * cols := by
  unfold cellList
  induction rows with
  | zero => simp
  | succ n ih =>
    rw [List.range_succ, List.flatMap_append, List.length_append, ih]
    simp [Nat.succ_mul]

/-- C10 amended: the click operations of the engine are total functions of
the embedding, and board generation does terminate when the random outcome
keeps proposing fresh cells — enumerating every cell row-major succeeds for
any configuration with `1 ≤ wines ≤ rows * cols` — but, by the
counterexample, not for every outcome of the random source. -/
theorem c10_amended {rows cols wines : Nat}
    (hrows : 1 ≤ rows) (hcols : 1 ≤ cols) (hwines : 1 ≤ wines)
    (hbound : wines ≤ rows * cols) :
    ∃ s, generateGame rows cols wines (cellList rows cols) = some s := by
  obtain ⟨wfin, hfin⟩ := @fillWines_total rows cols wines (cellList rows cols) 0
    (zeroBoard rows cols)
    (zeroBoard_wf rows cols) (zeroBoard_clue rows cols) (cellList_nodup rows cols)
    (fun p hp => mem_cellList.mp hp)
    (fun p hp => by
      have hpb := mem_cellList.mp hp
      rw [zeroBoard_value_total hpb.1 hpb.2]
      intro hc
      cases hc)
    (by rw [cellList_length]; omega)
  refine ⟨⟨rows, cols, wines, wfin, [], [], Phase.playing⟩, ?_⟩
  unfold generateGame
  rw [hfin]
  rfl

/-- Witness for the amended C10 on a 2 by 2 board with two wines. -/
theorem c10_amended_witness :
    (1 ≤ 2 ∧ 1 ≤ 2 ∧ 1 ≤ 2 ∧ 2 ≤ 2 * 2)
  ∧ ∃ s, generateGame 2 2 2 (cellList 2 2) = some s :=
  ⟨⟨by decide, by decide, by decide, by decide⟩,
    @c10_amended 2 2 2 (by decide) (by decide) (by decide) (by decide)⟩

end TerminationLemmas

end Winesweeper
